import Mathlib

/-!
Shallow embedding of the core logic of `cron-server.py`:
the cron-expression interpreter (`parse_cron`, `explain_field`,
`get_common_patterns`, `calculate_next_runs`) and the crontab table editor
(`get_cron_jobs`, `add_cron_job`, `delete_cron_job`).

Python strings are modelled as Lean `String`s; Python wall-clock datetimes
are modelled as seconds on an unbounded uniform timeline (naive `datetime`
arithmetic adds fixed multiples of seconds; the bounded year range 1..9999
of the `datetime` library is not modelled).  A timestamp formatted with
`"%Y-%m-%d %H:%M"` is identified with its minute number (seconds divided
by 60, flooring), since that format is injective at minute resolution.
Fallible Python code (exceptions) is modelled with `Except`/`Option`.
-/

/-- Characters treated as whitespace by Python `str.strip` / `str.split`. -/
def isPyWs (c : Char) : Bool :=
  c = ' ' || c = '\t' || c = '\n' || c = '\r' || c = Char.ofNat 11 || c = Char.ofNat 12

/-- `str.strip()` on the underlying character list. -/
def stripChars (l : List Char) : List Char :=
  ((l.dropWhile isPyWs).reverse.dropWhile isPyWs).reverse

/-- Python `s.strip()`. -/
def pyStrip (s : String) : String := ⟨stripChars s.data⟩

/-- Whitespace tokenisation, accumulator style: `str.split()` with no
separator argument (runs of whitespace separate tokens, empties dropped). -/
def wsTokensAux : List Char → List Char → List (List Char)
  | [], acc => if acc = [] then [] else [acc.reverse]
  | c :: cs, acc =>
    if isPyWs c then
      if acc = [] then wsTokensAux cs [] else acc.reverse :: wsTokensAux cs []
    else wsTokensAux cs (c :: acc)

/-- Python `s.split()` (no argument). -/
def pySplitWs (s : String) : List String := (wsTokensAux s.data []).map String.mk

/-- Single-character separator split, accumulator style. -/
def splitCharAux (sep : Char) : List Char → List Char → List (List Char)
  | [], acc => [acc.reverse]
  | c :: cs, acc =>
    if c = sep then acc.reverse :: splitCharAux sep cs []
    else splitCharAux sep cs (c :: acc)

/-- Python `s.split(sep)` for a one-character separator (keeps empty pieces;
`"".split(sep) = [""]`). -/
def pySplitOn (sep : Char) (s : String) : List String :=
  (splitCharAux sep s.data []).map String.mk

/-- Python `", ".join(...)` style join with an arbitrary separator string. -/
def joinStr (sep : String) : List String → String
  | [] => ""
  | [x] => x
  | x :: y :: xs => x ++ sep ++ joinStr sep (y :: xs)

/-- `p` is a leading piece of `l` (used for Python `str.startswith`). -/
def strStartsWith : List Char → List Char → Bool
  | [], _ => true
  | _ :: _, [] => false
  | p :: ps, c :: cs => p = c && strStartsWith ps cs

/-- Python `s.startswith(pre)`. -/
def pyStartsWith (s pre : String) : Bool := strStartsWith pre.data s.data

/-- Python `s[n:]`. -/
def strDrop (n : Nat) (s : String) : String := ⟨s.data.drop n⟩

/-- Python `s.isdigit()` (restricted to ASCII digits). -/
def pyIsDigit (s : String) : Bool := !s.data.isEmpty && s.data.all Char.isDigit

/-- Numeric value of an ASCII digit string (`int` on an `isdigit` string). -/
def digitsToNat (l : List Char) : Nat :=
  l.foldl (fun a c => a * 10 + (c.toNat - 48)) 0

/-- `int(s)` for a string passing `isdigit`. -/
def pyToNat (s : String) : Nat := digitsToNat s.data

/-- Digit run possibly containing single interior underscores, as accepted by
Python `int`; `none` models a raised `ValueError`. -/
def parseDigitsGo : Nat → List Char → Option Nat
  | acc, [] => some acc
  | acc, c :: rest =>
    if c.isDigit then parseDigitsGo (acc * 10 + (c.toNat - 48)) rest
    else if c = '_' then
      match rest with
      | d :: rest' =>
        if d.isDigit then parseDigitsGo (acc * 10 + (d.toNat - 48)) rest'
        else none
      | [] => none
    else none

/-- Nonempty digit run (underscore grouping allowed), first character a digit. -/
def parseDigitsU : List Char → Option Nat
  | [] => none
  | c :: rest => if c.isDigit then parseDigitsGo (c.toNat - 48) rest else none

/-- Python `int(s)` on an arbitrary string; `none` models a raised
`ValueError`. -/
def pyInt (s : String) : Option Int :=
  match (pyStrip s).data with
  | '+' :: rest => (parseDigitsU rest).map (fun n => (n : Int))
  | '-' :: rest => (parseDigitsU rest).map (fun n => -(n : Int))
  | l => (parseDigitsU l).map (fun n => (n : Int))

/-- Python `s.capitalize()`: first character upper-cased, the rest
lower-cased. -/
def pyCapitalize (s : String) : String :=
  match s.data with
  | [] => ""
  | c :: rest => ⟨c.toUpper :: rest.map Char.toLower⟩

/-- Minute number of a timestamp given in seconds (the `"%Y-%m-%d %H:%M"`
rendering truncates to the containing minute, i.e. floors). -/
def minuteOf (t : Int) : Int := Int.fdiv t 60

/-- Python tuple unpacking `a, b = parts`; an error carries the `ValueError`
message. -/
def unpack2 : List String → Except String (String × String)
  | [] => .error "not enough values to unpack (expected 2, got 0)"
  | [_] => .error "not enough values to unpack (expected 2, got 1)"
  | [a, b] => .ok (a, b)
  | _ => .error "too many values to unpack (expected 2)"

/-- The minute-field block of the explanation builder in `parse_cron`. -/
def minutePhrases (minute : String) : Except String (List String) :=
  if minute = "*" then .ok ["every minute"]
  else if minute.data.contains '/' then
    if pyStartsWith minute "*/" then
      .ok ["every " ++ strDrop 2 minute ++ " minutes"]
    else
      let ps := pySplitOn '/' minute
      .ok ["every " ++ ps.getD 1 "" ++ " minutes starting at minute " ++ ps.getD 0 ""]
  else if minute.data.contains ',' then .ok ["at minutes " ++ minute]
  else if minute.data.contains '-' then do
    let (s, e) ← unpack2 (pySplitOn '-' minute)
    .ok ["from minute " ++ s ++ " to " ++ e]
  else .ok ["at minute " ++ minute]

/-- The hour-field block of the explanation builder in `parse_cron`. -/
def hourPhrases (hour : String) : Except String (List String) :=
  if hour = "*" then .ok []
  else if hour.data.contains '/' then
    if pyStartsWith hour "*/" then
      .ok ["every " ++ strDrop 2 hour ++ " hours"]
    else
      let ps := pySplitOn '/' hour
      .ok ["every " ++ ps.getD 1 "" ++ " hours starting at hour " ++ ps.getD 0 ""]
  else if hour.data.contains ',' then .ok ["at hours " ++ hour]
  else if hour.data.contains '-' then do
    let (s, e) ← unpack2 (pySplitOn '-' hour)
    .ok ["from hour " ++ s ++ " to " ++ e]
  else .ok ["at " ++ hour ++ ":XX"]

/-- The day-field block of the explanation builder in `parse_cron`. -/
def dayPhrases (day : String) : Except String (List String) :=
  if day = "*" then .ok []
  else if day.data.contains '/' then
    .ok ["every " ++ (pySplitOn '/' day).getD 1 "" ++ " days"]
  else if day.data.contains ',' then .ok ["on days " ++ day]
  else if day.data.contains '-' then do
    let (s, e) ← unpack2 (pySplitOn '-' day)
    .ok ["from day " ++ s ++ " to " ++ e]
  else .ok ["on day " ++ day]

/-- Month names used by the month-field block. -/
def monthNames : List String :=
  ["Jan", "Feb", "Mar", "Apr", "May", "Jun",
   "Jul", "Aug", "Sep", "Oct", "Nov", "Dec"]

/-- The month-field block of the explanation builder in `parse_cron`
(never raises). -/
def monthPhrases (month : String) : List String :=
  if month = "*" then []
  else if pyIsDigit month ∧ 1 ≤ pyToNat month ∧ pyToNat month ≤ 12 then
    ["in " ++ monthNames.getD (pyToNat month - 1) ""]
  else if month.data.contains ',' then
    ["in " ++ joinStr ", " ((pySplitOn ',' month).filterMap (fun m =>
      if pyIsDigit m ∧ 1 ≤ pyToNat m ∧ pyToNat m ≤ 12 then
        some (monthNames.getD (pyToNat m - 1) "")
      else none))]
  else []

/-- Weekday names used by the weekday-field block (0 = Sunday). -/
def weekdayNames : List String :=
  ["Sunday", "Monday", "Tuesday", "Wednesday", "Thursday", "Friday", "Saturday"]

/-- The weekday-field block of the explanation builder in `parse_cron`
(never raises). -/
def weekdayPhrases (weekday : String) : List String :=
  if weekday = "*" then []
  else if pyIsDigit weekday ∧ pyToNat weekday ≤ 6 then
    ["on " ++ weekdayNames.getD (pyToNat weekday) ""]
  else if weekday.data.contains ',' then
    ["on " ++ joinStr ", " ((pySplitOn ',' weekday).filterMap (fun d =>
      if pyIsDigit d ∧ pyToNat d ≤ 6 then
        some (weekdayNames.getD (pyToNat d) "")
      else none))]
  else []

/-- `CronPreview.get_common_patterns`: the fixed pattern catalogue. -/
def get_common_patterns (expression : String) : Option String :=
  [("* * * * *", "Every minute"),
   ("0 * * * *", "Every hour"),
   ("0 0 * * *", "Daily at midnight"),
   ("0 12 * * *", "Daily at noon"),
   ("0 9 * * 1", "Every Monday at 9 AM"),
   ("0 0 1 * *", "First day of every month"),
   ("0 0 1 1 *", "Every New Year (January 1st)"),
   ("*/5 * * * *", "Every 5 minutes"),
   ("*/15 * * * *", "Every 15 minutes"),
   ("*/30 * * * *", "Every 30 minutes"),
   ("0 */6 * * *", "Every 6 hours"),
   ("0 2 * * *", "Daily at 2 AM"),
   ("0 0 * * 0", "Every Sunday at midnight"),
   ("0 0 * * 1-5", "Weekdays at midnight"),
   ("30 2 * * 1-5", "Weekdays at 2:30 AM")].lookup expression

/-- `CronPreview.explain_field`: one breakdown string per field (the min/max
arguments are informational only, exactly as in the source). -/
def explain_field (field field_name : String) (_min_val _max_val : Nat) :
    Except String String :=
  if field = "*" then .ok ("Any " ++ field_name)
  else if field.data.contains '/' then
    if pyStartsWith field "*/" then
      .ok ("Every " ++ strDrop 2 field ++ " " ++ field_name ++ "s")
    else
      let ps := pySplitOn '/' field
      .ok ("Every " ++ ps.getD 1 "" ++ " " ++ field_name ++ "s starting from " ++
        ps.getD 0 "")
  else if field.data.contains ',' then .ok (field_name ++ "s: " ++ field)
  else if field.data.contains '-' then do
    let (s, e) ← unpack2 (pySplitOn '-' field)
    .ok (field_name ++ "s from " ++ s ++ " to " ++ e)
  else .ok (field_name ++ " " ++ field)

/-- Body of the daily-recurrence loop of `calculate_next_runs`: re-check
`next_run <= now`, emit, advance one day (86400 s). -/
def dailyRuns (now : Nat) : Nat → Nat → List Int
  | _, 0 => []
  | next, k + 1 =>
    let adj := if next ≤ now then next + 86400 else next
    minuteOf (adj : Int) :: dailyRuns now (adj + 86400) k

/-- `CronPreview.calculate_next_runs`: the heuristic occurrence projector.
`now` is the wall clock in whole seconds; results are minute numbers of the
formatted timestamps.  Exceptions inside the `try` (failed `int`, failed
`datetime.replace`) yield the empty list. -/
def calculate_next_runs (parts : List String) (now : Nat) (count : Nat) :
    List Int :=
  (match parts with
   | [minute, hour, _day, _month, _weekday] =>
     if parts = ["*", "*", "*", "*", "*"] then
       (List.range count).map (fun (i : Nat) => minuteOf ((now : Int) + 60 * ((i : Int) + 1)))
     else if pyStartsWith minute "*/" ∧ hour = "*" then
       match pyInt (strDrop 2 minute) with
       | none => []
       | some n =>
         (List.range count).map (fun (i : Nat) => minuteOf ((now : Int) + 60 * n * ((i : Int) + 1)))
     else if pyIsDigit minute ∧ pyIsDigit hour then
       let th := pyToNat hour
       let tm := pyToNat minute
       if th ≤ 23 ∧ tm ≤ 59 then
         dailyRuns now (now / 86400 * 86400 + th * 3600 + tm * 60) count
       else []
     else if minute = "0" ∧ hour = "*" then
       (List.range count).map
         (fun (i : Nat) => minuteOf ((now / 3600 * 3600 + 3600 + 3600 * i : Nat) : Int))
     else
       (List.range count).map (fun (i : Nat) => minuteOf ((now : Int) + 3600 * ((i : Int) + 1)))
   | _ => []).take count

/-- The five per-field breakdown strings of a valid `ParseResult`. -/
structure Breakdown where
  minute : String
  hour : String
  day : String
  month : String
  weekday : String
deriving DecidableEq, Repr

/-- Result dictionary of `CronPreview.parse_cron`.  `next_runs` holds the
minute numbers of the formatted timestamps; `breakdown` is `none` exactly
when the key is absent from the returned dictionary. -/
structure ParseResult where
  valid : Bool
  description : String
  next_runs : List Int
  explanation : String
  breakdown : Option Breakdown
deriving DecidableEq, Repr

/-- `CronPreview.parse_cron`, parameterised by the wall clock `now`
(seconds). -/
def parse_cron (now : Nat) (expression : String) : ParseResult :=
  let parts := pySplitWs (pyStrip expression)
  if parts.length ≠ 5 then
    { valid := false
      description := "Invalid cron expression - must have 5 parts"
      next_runs := []
      explanation := "Cron format: minute hour day month weekday"
      breakdown := none }
  else
    let minute := parts.getD 0 ""
    let hour := parts.getD 1 ""
    let day := parts.getD 2 ""
    let month := parts.getD 3 ""
    let weekday := parts.getD 4 ""
    let built : Except String (List String × Breakdown) := do
      let mp ← minutePhrases minute
      let hp ← hourPhrases hour
      let dp ← dayPhrases day
      let mop := monthPhrases month
      let wp := weekdayPhrases weekday
      let bmin ← explain_field minute "minute" 0 59
      let bhour ← explain_field hour "hour" 0 23
      let bday ← explain_field day "day of month" 1 31
      let bmonth ← explain_field month "month" 1 12
      let bweek ← explain_field weekday "day of week" 0 6
      .ok (mp ++ hp ++ dp ++ mop ++ wp,
        Breakdown.mk bmin bhour bday bmonth bweek)
    match built with
    | .error e =>
      { valid := false
        description := "Error parsing cron expression"
        next_runs := []
        explanation := e
        breakdown := none }
    | .ok (phrases, bd) =>
      let expl := pyCapitalize (joinStr " " phrases)
      { valid := true
        description := (get_common_patterns expression).getD expl
        next_runs := calculate_next_runs parts now 5
        explanation := expl
        breakdown := some bd }

/-- One entry of the job list returned by `get_cron_jobs` (one dictionary of
the `jobs` array; `next_runs` is already truncated to 3 there). -/
structure CronJob where
  index : Nat
  schedule : String
  command : String
  comment : String
  full_line : String
  description : String
  next_runs : List Int
deriving DecidableEq, Repr

/-- `s.startswith('#')` on the raw string. -/
def startsWithHash (s : String) : Bool :=
  match s.data with
  | [] => false
  | c :: _ => c = '#'

/-- The line scan of `get_cron_jobs`, threading the pending `comment` buffer
and the running `job_index`. -/
def jobsAux (now : Nat) : List String → String → Nat → List CronJob
  | [], _, _ => []
  | line :: rest, comment, idx =>
    let l := pyStrip line
    if l = "" then jobsAux now rest "" idx
    else if startsWithHash l then jobsAux now rest (pyStrip (strDrop 1 l)) idx
    else
      let parts := pySplitWs l
      if 5 ≤ parts.length then
        let schedule := joinStr " " (parts.take 5)
        let command := joinStr " " (parts.drop 5)
        let preview := parse_cron now schedule
        { index := idx
          schedule := schedule
          command := command
          comment := if comment = "" then "Custom cron job" else comment
          full_line := l
          description := preview.description
          next_runs := preview.next_runs.take 3 } :: jobsAux now rest "" (idx + 1)
      else jobsAux now rest "" idx

/-- `CronMonitorServer.get_cron_jobs`; the snapshot is the raw text of
`crontab -l`, `none` when that call fails ("no table"). -/
def get_cron_jobs (now : Nat) : Option String → List CronJob
  | none => []
  | some text => jobsAux now (pySplitOn '\n' text) "" 0

/-- The new line sequence staged by `add_cron_job` before installation. -/
def addLines (current : List String) (schedule command comment : String) :
    List String :=
  (if comment ≠ "" then current ++ ["#" ++ comment] else current) ++
    [schedule ++ " " ++ command]

/-- Text written to the temporary file: lines joined by newlines plus a final
newline. -/
def writeText (lines : List String) : String := joinStr "\n" lines ++ "\n"

/-- Outcome of one `add_cron_job` / `delete_cron_job` attempt:
what was installed (if the install step succeeded), whether the temporary
file is still on disk when the method returns, and the returned boolean. -/
structure MutationOutcome where
  written : Option String
  tempLeft : Bool
  success : Bool
deriving DecidableEq, Repr

/-- `CronMonitorServer.add_cron_job`.  `installOk` abstracts whether the
`crontab temp_file` install step succeeds; when it raises, the `except`
handler returns `False` without reaching `os.unlink`, so the temporary file
stays on disk. -/
def add_cron_job (snapshot : Option String) (schedule command comment : String)
    (installOk : Bool) : MutationOutcome :=
  let current :=
    match snapshot with
    | none => []
    | some text => pySplitOn '\n' (pyStrip text)
  let newLines := addLines current schedule command comment
  if installOk then
    { written := some (writeText newLines), tempLeft := false, success := true }
  else
    { written := none, tempLeft := true, success := false }

/-- Whether the deletion scan counts a raw line against the target index
(`line.strip()` truthy and the raw line does not start with `#`). -/
def delCounts (line : String) : Bool :=
  pyStrip line ≠ "" && !startsWithHash line

/-- The filtering loop of `delete_cron_job`: `acc` is `filtered_lines`,
`prev` is `lines[i-1]` (`none` at `i = 0`), `cur` the running job counter. -/
def deleteAux : List String → List String → Option String → Nat → Nat →
    List String
  | [], acc, _, _, _ => acc
  | line :: rest, acc, prev, cur, target =>
    if delCounts line then
      if cur = target then
        let acc' :=
          if (match prev with
              | some p => startsWithHash (pyStrip p)
              | none => false) then acc.dropLast else acc
        deleteAux rest acc' (some line) (cur + 1) target
      else deleteAux rest (acc ++ [line]) (some line) (cur + 1) target
    else deleteAux rest (acc ++ [line]) (some line) cur target

/-- `filtered_lines` as computed by `delete_cron_job` on the read lines. -/
def deleteLines (lines : List String) (target : Nat) : List String :=
  deleteAux lines [] none 0 target

/-- Observer of the deletion scan: the raw line whose running job counter
equals the target (the line the scan drops), if any. -/
def deletedLineAux : List String → Nat → Nat → Option String
  | [], _, _ => none
  | line :: rest, cur, target =>
    if delCounts line then
      if cur = target then some line else deletedLineAux rest (cur + 1) target
    else deletedLineAux rest cur target

/-- The raw line dropped by `delete_cron_job lines target`, if the scan
reaches the target counter. -/
def deletedLine (lines : List String) (target : Nat) : Option String :=
  deletedLineAux lines 0 target

/-- Number of lines the deletion scan counts (the value of
`current_job_index` after the loop). -/
def countDel (lines : List String) : Nat :=
  (lines.filter delCounts).length

/-- `CronMonitorServer.delete_cron_job`.  When `crontab -l` fails (`none`
snapshot) the exception is caught before the temporary file exists; after a
successful read the method always installs the filtered lines and returns
`True` unless the install step itself fails. -/
def delete_cron_job (snapshot : Option String) (target : Nat)
    (installOk : Bool) : MutationOutcome :=
  match snapshot with
  | none => { written := none, tempLeft := false, success := false }
  | some text =>
    let lines := pySplitOn '\n' (pyStrip text)
    let filtered := deleteLines lines target
    if installOk then
      { written := some (writeText filtered), tempLeft := false, success := true }
    else
      { written := none, tempLeft := true, success := false }

/-- Spec-side rendering of the daily-recurrence base instant: today at
`h:m` if that instant is still in the future relative to `now`, otherwise
tomorrow at `h:m` (all in seconds). -/
def dailyBase (now h m : Nat) : Nat :=
  let target := now / 86400 * 86400 + h * 3600 + m * 60
  if now < target then target else target + 86400

/-- The minute-step branch of the occurrence projector, when taken, has a
positive step value (rules out `*/0` and negative steps). -/
def minuteStepPosOk (s : String) : Bool :=
  match pySplitWs (pyStrip s) with
  | minute :: hour :: _ =>
    if pyStartsWith minute "*/" ∧ hour = "*" then
      match pyInt (strDrop 2 minute) with
      | some n => decide (0 < n)
      | none => true
    else true
  | _ => true

/-- A raw table line on which the scans of `get_cron_jobs` and
`delete_cron_job` agree: blank after trimming, a comment line already
starting with `#` in column zero, or an entry line with at least five
tokens (and not a comment once trimmed). -/
def canonLine (line : String) : Bool :=
  pyStrip line = "" || startsWithHash line ||
    (!startsWithHash (pyStrip line) && 5 ≤ (pySplitWs (pyStrip line)).length)

/-- Every line of the table is canonical in the sense of `canonLine`. -/
def canonTable (lines : List String) : Bool := lines.all canonLine

/-- The pending-comment buffer left by the `get_cron_jobs` scan. -/
def jobsComment : List String → String → String
  | [], cmt => cmt
  | line :: rest, _cmt =>
    let l := pyStrip line
    if l = "" then jobsComment rest ""
    else if startsWithHash l then jobsComment rest (pyStrip (strDrop 1 l))
    else jobsComment rest ""

/-- Every result of `parse_cron` is either valid or carries an empty
`next_runs` and an absent `breakdown`. -/
theorem parse_cron_shape (now : Nat) (s : String) :
    (parse_cron now s).valid = true ∨
    ((parse_cron now s).next_runs = [] ∧ (parse_cron now s).breakdown = none) := by
  simp only [parse_cron]
  split
  · exact Or.inr ⟨rfl, rfl⟩
  · split
    · exact Or.inr ⟨rfl, rfl⟩
    · exact Or.inl rfl

/-- C5: an expression whose whitespace split does not have exactly 5 tokens
is rejected with the fixed message, the fixed explanation and no next runs. -/
theorem C5_parse_rejects_non_five (now : Nat) (s : String)
    (h : (pySplitWs (pyStrip s)).length ≠ 5) :
    parse_cron now s =
      { valid := false
        description := "Invalid cron expression - must have 5 parts"
        next_runs := []
        explanation := "Cron format: minute hour day month weekday"
        breakdown := none } := by
  simp only [parse_cron]
  rw [if_pos h]

/-- Witness for C5 at the concrete 4-token expression `"0 * * *"`. -/
theorem C5_witness :
    (pySplitWs (pyStrip "0 * * *")).length ≠ 5 ∧
    parse_cron 7 "0 * * *" =
      { valid := false
        description := "Invalid cron expression - must have 5 parts"
        next_runs := []
        explanation := "Cron format: minute hour day month weekday"
        breakdown := none } :=
  ⟨by decide, C5_parse_rejects_non_five 7 "0 * * *" (by decide)⟩

/-- C6: whenever `parse_cron` reports `valid = false`, its `next_runs` is
empty and the `breakdown` key is absent. -/
theorem C6_invalid_empty (now : Nat) (s : String)
    (h : (parse_cron now s).valid = false) :
    (parse_cron now s).next_runs = [] ∧ (parse_cron now s).breakdown = none := by
  rcases parse_cron_shape now s with hv | hok
  · rw [h] at hv; cases hv
  · exact hok

/-- Witness for C6 at a concrete invalid expression. -/
theorem C6_witness :
    (parse_cron 0 "nonsense").next_runs = [] ∧
    (parse_cron 0 "nonsense").breakdown = none :=
  C6_invalid_empty 0 "nonsense" (by decide)

/-- C10: `"*/x * * * *"` parses as valid although its occurrence projection
is empty (the failed `int("x")` is swallowed inside the projector). -/
theorem C10_valid_with_empty_runs (now : Nat) :
    (parse_cron now "*/x * * * *").valid = true ∧
    (parse_cron now "*/x * * * *").next_runs = [] :=
  ⟨rfl, rfl⟩

/-- C4: when the install step fails, `add_cron_job` and `delete_cron_job`
return `False` but skip `os.unlink`, leaving the temporary file on disk;
only the success path removes it. -/
theorem C4_temp_file_leak :
    (add_cron_job (some "") "* * * * *" "/bin/x" "job" false).tempLeft = true ∧
    (add_cron_job (some "") "* * * * *" "/bin/x" "job" false).success = false ∧
    (delete_cron_job (some "0 0 * * * x") 0 false).tempLeft = true ∧
    (delete_cron_job (some "0 0 * * * x") 0 false).success = false ∧
    (add_cron_job (some "") "* * * * *" "/bin/x" "job" true).tempLeft = false ∧
    (delete_cron_job (some "0 0 * * * x") 0 true).tempLeft = false := by
  decide

/-- When the target counter is never reached, the deletion loop keeps every
line. -/
theorem deleteAux_past_end :
    ∀ (lines acc : List String) (prev : Option String) (cur target : Nat),
      cur + countDel lines ≤ target →
      deleteAux lines acc prev cur target = acc ++ lines := by
  intro lines
  induction lines with
  | nil => intro acc prev cur target _; simp [deleteAux]
  | cons l rest ih =>
    intro acc prev cur target h
    by_cases hc : delCounts l
    · have hcount : countDel (l :: rest) = countDel rest + 1 := by
        simp [countDel, List.filter_cons, hc]
      have hne : ¬ cur = target := by omega
      simp only [deleteAux, if_pos hc, if_neg hne]
      rw [ih (acc ++ [l]) (some l) (cur + 1) target (by omega)]
      simp
    · have hcount : countDel (l :: rest) = countDel rest := by
        simp [countDel, List.filter_cons, hc]
      simp only [deleteAux, if_neg hc]
      rw [ih (acc ++ [l]) (some l) cur target (by omega)]
      simp

/-- C1 (amended): deleting an out-of-range index leaves the read line
sequence unchanged, but the method still installs it and returns the
success boolean `True` (assuming the install step succeeds) instead of
signalling failure. -/
theorem C1_out_of_range_delete (t : String) (target : Nat)
    (h : countDel (pySplitOn '\n' (pyStrip t)) ≤ target) :
    deleteLines (pySplitOn '\n' (pyStrip t)) target = pySplitOn '\n' (pyStrip t) ∧
    (delete_cron_job (some t) target true).written =
      some (writeText (pySplitOn '\n' (pyStrip t))) ∧
    (delete_cron_job (some t) target true).success = true := by
  have hd := deleteAux_past_end (pySplitOn '\n' (pyStrip t)) [] none 0 target
    (by omega)
  refine ⟨hd, ?_, rfl⟩
  simp [delete_cron_job, deleteLines, hd]

/-- Witness for C1 (amended) on a one-entry table with index 5. -/
theorem C1_witness :
    deleteLines (pySplitOn '\n' (pyStrip "#a\n0 2 * * * x")) 5 =
      pySplitOn '\n' (pyStrip "#a\n0 2 * * * x") ∧
    (delete_cron_job (some "#a\n0 2 * * * x") 5 true).written =
      some (writeText (pySplitOn '\n' (pyStrip "#a\n0 2 * * * x"))) ∧
    (delete_cron_job (some "#a\n0 2 * * * x") 5 true).success = true :=
  C1_out_of_range_delete "#a\n0 2 * * * x" 5 (by decide)

/-- Counterexample for C1 as stated: on a one-entry table, deleting index 1
(out of range, the scan reaches only one entry) still returns the success
boolean `True`, not failure. -/
theorem C1_cex :
    countDel (pySplitOn '\n' (pyStrip "0 0 * * * x")) = 1 ∧
    (get_cron_jobs 0 (some "0 0 * * * x")).length = 1 ∧
    (delete_cron_job (some "0 0 * * * x") 1 true).success = true := by
  decide

/-- Counterexample for C3 as stated: `"*/0 * * * *"` is parsed as valid and
its five projected timestamps are all identical (duplicates). -/
theorem C3_cex :
    (parse_cron 0 "*/0 * * * *").valid = true ∧
    (parse_cron 0 "*/0 * * * *").next_runs = [0, 0, 0, 0, 0] ∧
    ¬ (parse_cron 0 "*/0 * * * *").next_runs.Nodup := by
  decide

/-- `minuteOf` is Euclidean division by the positive constant 60. -/
theorem minuteOf_eq_ediv (t : Int) : minuteOf t = t / 60 :=
  Int.fdiv_eq_ediv t (by norm_num)

/-- Shifting a timestamp by a whole number of minutes shifts its minute
number by the same amount. -/
theorem minuteOf_add_mul (a k : Int) : minuteOf (a + 60 * k) = minuteOf a + k := by
  rw [minuteOf_eq_ediv, minuteOf_eq_ediv, mul_comm]
  exact Int.add_mul_ediv_right a k (by norm_num)

/-- The `next_runs` of a `parse_cron` result are either empty or exactly the
projection of the five tokens. -/
theorem parse_cron_next_runs_shape (now : Nat) (s : String) :
    (parse_cron now s).next_runs = [] ∨
    ((pySplitWs (pyStrip s)).length = 5 ∧
      (parse_cron now s).next_runs =
        calculate_next_runs (pySplitWs (pyStrip s)) now 5) := by
  simp only [parse_cron]
  split
  · exact Or.inl rfl
  · next h5 =>
    split
    · exact Or.inl rfl
    · exact Or.inr ⟨not_not.mp h5, rfl⟩

/-- A list of length 5 is a literal five-element list. -/
theorem list_len_five {α : Type} (l : List α) (h : l.length = 5) :
    ∃ a b c d e, l = [a, b, c, d, e] := by
  rcases l with _ | ⟨a, _ | ⟨b, _ | ⟨c, _ | ⟨d, _ | ⟨e, _ | ⟨f, rest⟩⟩⟩⟩⟩⟩ <;>
    simp_all 

/-- The five-iteration daily loop, fully unrolled: the base instant is the
target when it is still ahead of `now`, else the target plus one day, and
each later entry adds one further day. -/
theorem dailyRuns_five (now target : Nat) (h : now < target + 86400) :
    dailyRuns now target 5 =
      if now < target then
        [minuteOf (target : Int),
         minuteOf ((target + 86400 : Nat) : Int),
         minuteOf ((target + 86400 + 86400 : Nat) : Int),
         minuteOf ((target + 86400 + 86400 + 86400 : Nat) : Int),
         minuteOf ((target + 86400 + 86400 + 86400 + 86400 : Nat) : Int)]
      else
        [minuteOf ((target + 86400 : Nat) : Int),
         minuteOf ((target + 86400 + 86400 : Nat) : Int),
         minuteOf ((target + 86400 + 86400 + 86400 : Nat) : Int),
         minuteOf ((target + 86400 + 86400 + 86400 + 86400 : Nat) : Int),
         minuteOf ((target + 86400 + 86400 + 86400 + 86400 + 86400 : Nat) : Int)] := by
  by_cases hlt : now < target
  · have c1 : ¬ (target ≤ now) := by omega
    have c2 : ¬ (target + 86400 ≤ now) := by omega
    have c3 : ¬ (target + 86400 + 86400 ≤ now) := by omega
    have c4 : ¬ (target + 86400 + 86400 + 86400 ≤ now) := by omega
    have c5 : ¬ (target + 86400 + 86400 + 86400 + 86400 ≤ now) := by omega
    rw [if_pos hlt]
    simp only [dailyRuns, if_neg c1, if_neg c2, if_neg c3, if_neg c4, if_neg c5]
  · have c1 : target ≤ now := by omega
    have c2 : ¬ (target + 86400 + 86400 ≤ now) := by omega
    have c3 : ¬ (target + 86400 + 86400 + 86400 ≤ now) := by omega
    have c4 : ¬ (target + 86400 + 86400 + 86400 + 86400 ≤ now) := by omega
    have c5 : ¬ (target + 86400 + 86400 + 86400 + 86400 + 86400 ≤ now) := by omega
    rw [if_neg hlt]
    simp only [dailyRuns, if_pos c1, if_neg c2, if_neg c3, if_neg c4, if_neg c5]

/-- A five-element projected list is a strict chain as soon as consecutive
images increase. -/
theorem chain_of_mono5 (f : Nat → Int) (hf : ∀ i, f i < f (i + 1)) :
    List.Chain' (· < ·) ((List.range 5).map f) := by
  have hrg : List.range 5 = [0, 1, 2, 3, 4] := by decide
  rw [hrg]
  simp only [List.map, List.chain'_cons, List.chain'_singleton, and_true]
  exact ⟨hf 0, hf 1, hf 2, hf 3⟩

/-- Adding one day strictly increases the minute number. -/
theorem minuteOf_lt_add_day (X : Nat) :
    minuteOf (X : Int) < minuteOf ((X + 86400 : Nat) : Int) := by
  push_cast
  rw [show (86400 : Int) = 60 * 1440 by norm_num, minuteOf_add_mul]
  omega

/-- Adding one hour strictly increases the minute number. -/
theorem minuteOf_lt_add_hour (X : Nat) :
    minuteOf (X : Int) < minuteOf ((X + 3600 : Nat) : Int) := by
  push_cast
  rw [show (3600 : Int) = 60 * 60 by norm_num, minuteOf_add_mul]
  omega

/-- A digit-only field never starts with the wildcard-step marker. -/
theorem pyIsDigit_no_star (s : String) (h : pyIsDigit s = true) :
    pyStartsWith s "*/" = false := by
  unfold pyIsDigit at h
  unfold pyStartsWith
  rcases hd : s.data with _ | ⟨c, rest⟩
  · rw [hd] at h; simp [List.isEmpty] at h
  · rw [hd] at h
    simp only [List.isEmpty, Bool.not_false, Bool.true_and, List.all_cons,
      Bool.and_eq_true] at h
    have hdata : ("*/" : String).data = ['*', '/'] := rfl
    rw [hdata]
    simp only [strStartsWith]
    have hne : ¬ ('*' : Char) = c := by
      intro he
      rw [← he] at h
      exact absurd h.1 (by decide)
    simp [hne]

/-- C3 (amended): the projection of `parse_cron` has at most 5 entries for
every input expression; it is strictly chronological with no duplicates
provided the minute-step branch, when taken, has a positive step (the
original claim fails on `*/0`). -/
theorem C3_next_runs_bounded_chain (now : Nat) (s : String) :
    (parse_cron now s).next_runs.length ≤ 5 ∧
    (minuteStepPosOk s = true →
      List.Chain' (· < ·) (parse_cron now s).next_runs) := by
  rcases parse_cron_next_runs_shape now s with he | ⟨h5, hc⟩
  · rw [he]; exact ⟨by simp, fun _ => List.chain'_nil⟩
  · obtain ⟨mi, hr, dd, mo, wk, hparts⟩ := list_len_five _ h5
    rw [hc, hparts]
    constructor
    · dsimp only [calculate_next_runs]
      exact List.length_take_le _ _
    intro h
    simp only [minuteStepPosOk, hparts] at h
    dsimp only [calculate_next_runs]
    by_cases hb1 : ([mi, hr, dd, mo, wk] : List String) = ["*", "*", "*", "*", "*"]
    · rw [if_pos hb1]
      rw [List.take_of_length_le (by simp)]
      refine chain_of_mono5 _ (fun i => ?_)
      rw [minuteOf_add_mul, minuteOf_add_mul]
      push_cast
      omega
    · rw [if_neg hb1]
      by_cases hb2 : pyStartsWith mi "*/" = true ∧ hr = "*"
      · rw [if_pos hb2]
        rw [if_pos hb2] at h
        rcases hpi : pyInt (strDrop 2 mi) with _ | n
        · simp only [hpi]
          simp
        · simp only [hpi] at h ⊢
          have hn : (0 : Int) < n := of_decide_eq_true h
          rw [List.take_of_length_le (by simp)]
          refine chain_of_mono5 _ (fun i => ?_)
          simp only [mul_assoc, minuteOf_add_mul]
          push_cast
          linarith [mul_lt_mul_of_pos_left
            (show ((i : Int) + 1) < (i : Int) + 1 + 1 by omega) hn]
      · rw [if_neg hb2]
        by_cases hb3 : pyIsDigit mi = true ∧ pyIsDigit hr = true
        · rw [if_pos hb3]
          by_cases hb4 : pyToNat hr ≤ 23 ∧ pyToNat mi ≤ 59
          · rw [if_pos hb4]
            have hbound : now <
                now / 86400 * 86400 + pyToNat hr * 3600 + pyToNat mi * 60 + 86400 := by
              have h1 := Nat.div_add_mod now 86400
              have h2 : now % 86400 < 86400 := Nat.mod_lt _ (by norm_num)
              omega
            rw [dailyRuns_five now _ hbound]
            by_cases hlt : now <
                now / 86400 * 86400 + pyToNat hr * 3600 + pyToNat mi * 60
            · rw [if_pos hlt, List.take_of_length_le (by simp)]
              simp only [List.chain'_cons, List.chain'_singleton, and_true]
              exact ⟨minuteOf_lt_add_day _, minuteOf_lt_add_day _,
                minuteOf_lt_add_day _, minuteOf_lt_add_day _⟩
            · rw [if_neg hlt, List.take_of_length_le (by simp)]
              simp only [List.chain'_cons, List.chain'_singleton, and_true]
              exact ⟨minuteOf_lt_add_day _, minuteOf_lt_add_day _,
                minuteOf_lt_add_day _, minuteOf_lt_add_day _⟩
          · rw [if_neg hb4]
            simp
        · rw [if_neg hb3]
          by_cases hb5 : mi = "0" ∧ hr = "*"
          · rw [if_pos hb5]
            rw [List.take_of_length_le (by simp)]
            refine chain_of_mono5 _ (fun i => ?_)
            have e1 : now / 3600 * 3600 + 3600 + 3600 * (i + 1) =
                now / 3600 * 3600 + 3600 + 3600 * i + 3600 := by ring
            rw [e1]
            exact minuteOf_lt_add_hour _
          · rw [if_neg hb5]
            rw [List.take_of_length_le (by simp)]
            refine chain_of_mono5 _ (fun i => ?_)
            rw [show (3600 : Int) = 60 * 60 by norm_num]
            simp only [mul_assoc, minuteOf_add_mul]
            push_cast
            omega

/-- Witness for C3 (amended) at `"*/3 * * * *"`. -/
theorem C3_witness :
    (parse_cron 0 "*/3 * * * *").next_runs.length ≤ 5 ∧
    List.Chain' (· < ·) (parse_cron 0 "*/3 * * * *").next_runs :=
  ⟨(C3_next_runs_bounded_chain 0 "*/3 * * * *").1,
   (C3_next_runs_bounded_chain 0 "*/3 * * * *").2 (by decide)⟩

/-- C7: for digit-only minute and hour fields in range, the projection is a
daily recurrence: base instant today at hour:minute if still ahead of now,
else tomorrow, each later entry exactly one day after the previous one. -/
theorem C7_daily_projection (now : Nat) (mi hr dd mo wk : String)
    (hmi : pyIsDigit mi = true) (hhr : pyIsDigit hr = true)
    (hh : pyToNat hr ≤ 23) (hm : pyToNat mi ≤ 59) :
    calculate_next_runs [mi, hr, dd, mo, wk] now 5 =
      [minuteOf ((dailyBase now (pyToNat hr) (pyToNat mi) : Nat) : Int),
       minuteOf ((dailyBase now (pyToNat hr) (pyToNat mi) + 86400 : Nat) : Int),
       minuteOf ((dailyBase now (pyToNat hr) (pyToNat mi) + 86400 + 86400 : Nat) : Int),
       minuteOf ((dailyBase now (pyToNat hr) (pyToNat mi) + 86400 + 86400 + 86400 : Nat) : Int),
       minuteOf ((dailyBase now (pyToNat hr) (pyToNat mi) + 86400 + 86400 + 86400 + 86400 :
         Nat) : Int)] := by
  have hstar : mi ≠ "*" := fun he => by rw [he] at hmi; exact absurd hmi (by decide)
  have hb1 : ¬ ([mi, hr, dd, mo, wk] : List String) = ["*", "*", "*", "*", "*"] := by
    intro he; injection he with h1 _; exact hstar h1
  have hss := pyIsDigit_no_star mi hmi
  have hb2 : ¬ (pyStartsWith mi "*/" = true ∧ hr = "*") := by
    rintro ⟨h1, _⟩; rw [hss] at h1; cases h1
  dsimp only [calculate_next_runs]
  rw [if_neg hb1, if_neg hb2, if_pos ⟨hmi, hhr⟩, if_pos ⟨hh, hm⟩]
  have hbound : now <
      now / 86400 * 86400 + pyToNat hr * 3600 + pyToNat mi * 60 + 86400 := by
    have h1 := Nat.div_add_mod now 86400
    have h2 : now % 86400 < 86400 := Nat.mod_lt _ (by norm_num)
    omega
  rw [dailyRuns_five now _ hbound]
  by_cases hlt : now < now / 86400 * 86400 + pyToNat hr * 3600 + pyToNat mi * 60
  · rw [if_pos hlt, List.take_of_length_le (by simp)]
    simp only [dailyBase, if_pos hlt]
  · rw [if_neg hlt, List.take_of_length_le (by simp)]
    simp only [dailyBase, if_neg hlt]

/-- Witness for C7 at minute 30, hour 12, with the clock at 260000 s. -/
theorem C7_witness :
    calculate_next_runs ["30", "12", "*", "*", "*"] 260000 5 =
      [minuteOf ((dailyBase 260000 (pyToNat "12") (pyToNat "30") : Nat) : Int),
       minuteOf ((dailyBase 260000 (pyToNat "12") (pyToNat "30") + 86400 : Nat) : Int),
       minuteOf ((dailyBase 260000 (pyToNat "12") (pyToNat "30") + 86400 + 86400 : Nat) : Int),
       minuteOf ((dailyBase 260000 (pyToNat "12") (pyToNat "30") + 86400 + 86400 + 86400 :
         Nat) : Int),
       minuteOf ((dailyBase 260000 (pyToNat "12") (pyToNat "30") + 86400 + 86400 + 86400 +
         86400 : Nat) : Int)] :=
  C7_daily_projection 260000 "30" "12" "*" "*" "*"
    (by decide) (by decide) (by decide) (by decide)

/-- A separator-free run is swallowed whole by the split loop. -/
theorem splitCharAux_no_sep (sep : Char) :
    ∀ (l acc : List Char), sep ∉ l →
      splitCharAux sep l acc = [acc.reverse ++ l] := by
  intro l
  induction l with
  | nil => intro acc _; simp [splitCharAux]
  | cons c cs ih =>
    intro acc hmem
    have hc : ¬ c = sep := fun he => hmem (by simp [he])
    simp only [splitCharAux, if_neg hc]
    rw [ih (c :: acc) (fun hm => hmem (by simp [hm]))]
    simp

/-- Splitting at the first separator occurrence. -/
theorem splitCharAux_sep (sep : Char) :
    ∀ (l₁ l₂ acc : List Char), sep ∉ l₁ →
      splitCharAux sep (l₁ ++ sep :: l₂) acc =
        (acc.reverse ++ l₁) :: splitCharAux sep l₂ [] := by
  intro l₁
  induction l₁ with
  | nil => intro l₂ acc _; simp [splitCharAux]
  | cons c cs ih =>
    intro l₂ acc hmem
    have hc : ¬ c = sep := fun he => hmem (by simp [he])
    rw [List.cons_append]
    simp only [splitCharAux, if_neg hc]
    rw [ih l₂ (c :: acc) (fun hm => hmem (by simp [hm]))]
    simp

/-- The underlying characters of the step field `a ++ "/" ++ b`. -/
theorem data_slash (a b : String) :
    (a ++ "/" ++ b).data = a.data ++ '/' :: b.data := by
  rw [String.data_append, String.data_append]
  simp

/-- `split('/')` of a step field with slash-free halves. -/
theorem pySplitOn_slash (a b : String)
    (ha : '/' ∉ a.data) (hb : '/' ∉ b.data) :
    pySplitOn '/' (a ++ "/" ++ b) = [a, b] := by
  unfold pySplitOn
  rw [data_slash, splitCharAux_sep _ _ _ _ ha, splitCharAux_no_sep _ _ _ hb]
  simp

/-- A step field with a non-wildcard base does not start with `*/`. -/
theorem startsWith_star_slash_false (a b : String)
    (ha : '/' ∉ a.data) (hstar : a ≠ "*") :
    pyStartsWith (a ++ "/" ++ b) "*/" = false := by
  unfold pyStartsWith
  have hpat : ("*/" : String).data = ['*', '/'] := rfl
  rw [data_slash, hpat]
  rcases haa : a.data with _ | ⟨c, rest⟩
  · simp [strStartsWith]
  · rcases rest with _ | ⟨c2, rest2⟩
    · by_cases hc : c = '*'
      · exact absurd (String.ext (by rw [haa, hc])) hstar
      · have hne : ('*' : Char) ≠ c := fun he => hc he.symm
        simp [strStartsWith, hne]
    · by_cases hc : c = '*'
      · have hc2 : ('/' : Char) ≠ c2 := by
          intro he
          exact ha (by rw [haa, ← he]; simp)
        simp [strStartsWith, hc2]
      · have hne : ('*' : Char) ≠ c := fun he => hc he.symm
        simp [strStartsWith, hne]

/-- A field containing `/` is not all digits. -/
theorem pyIsDigit_of_slash (s : String) (h : '/' ∈ s.data) :
    pyIsDigit s = false := by
  unfold pyIsDigit
  rcases hall : s.data.all Char.isDigit with _ | _
  · simp
  · have := (List.all_eq_true.mp hall) '/' h
    exact absurd this (by decide)

/-- Counterexample for C8 as stated: for the day-of-month field the step
`2/3` contributes the phrase `"every 3 days"` with no starting clause, and
the month and weekday fields contribute no phrase at all. -/
theorem C8_cex :
    dayPhrases "2/3" = .ok ["every 3 days"] ∧
    monthPhrases "2/3" = [] ∧
    weekdayPhrases "2/3" = [] ∧
    ("every 3 days" : String) ≠ "every 3 day of months starting at day of month 2" := by
  refine ⟨rfl, rfl, rfl, by decide⟩

/-- C8 (amended): for a step field `a/n` with a non-wildcard, slash-free,
comma-free base, the minute and hour fields contribute the claimed
"starting at" phrase, the day field contributes only `"every n days"`, the
month and weekday fields contribute no phrase, and the breakdown string is
the claimed `"Every n <fieldName>s starting from a"` for every field name. -/
theorem C8_step_field (a b : String)
    (ha : '/' ∉ a.data) (hb : '/' ∉ b.data)
    (hstar : a ≠ "*")
    (hca : ',' ∉ a.data) (hcb : ',' ∉ b.data) :
    minutePhrases (a ++ "/" ++ b) =
      .ok ["every " ++ b ++ " minutes starting at minute " ++ a] ∧
    hourPhrases (a ++ "/" ++ b) =
      .ok ["every " ++ b ++ " hours starting at hour " ++ a] ∧
    dayPhrases (a ++ "/" ++ b) = .ok ["every " ++ b ++ " days"] ∧
    monthPhrases (a ++ "/" ++ b) = [] ∧
    weekdayPhrases (a ++ "/" ++ b) = [] ∧
    ∀ name lo hi, explain_field (a ++ "/" ++ b) name lo hi =
      .ok ("Every " ++ b ++ " " ++ name ++ "s starting from " ++ a) := by
  have hmem : '/' ∈ (a ++ "/" ++ b).data := by rw [data_slash]; simp
  have hcon : (a ++ "/" ++ b).data.contains '/' = true := by simp
  have hne : (a ++ "/" ++ b) ≠ "*" := by
    intro he
    rw [he] at hmem
    simp at hmem
  have hss := startsWith_star_slash_false a b ha hstar
  have hssne : ¬ pyStartsWith (a ++ "/" ++ b) "*/" = true := by simp [hss]
  have hsplit := pySplitOn_slash a b ha hb
  have hdig : ¬ pyIsDigit (a ++ "/" ++ b) = true := by
    simp [pyIsDigit_of_slash _ hmem]
  have hcomma : ¬ (a ++ "/" ++ b).data.contains ',' = true := by
    rw [data_slash]
    intro hm
    have hm2 : ',' ∈ a.data ++ '/' :: b.data := by simpa using hm
    rcases List.mem_append.mp hm2 with h1 | h2
    · exact hca h1
    · rcases List.mem_cons.mp h2 with h3 | h3
      · exact absurd h3 (by decide)
      · exact hcb h3
  refine ⟨?_, ?_, ?_, ?_, ?_, ?_⟩
  · simp only [minutePhrases]
    rw [if_neg hne, if_pos hcon, if_neg hssne, hsplit]
    rfl
  · simp only [hourPhrases]
    rw [if_neg hne, if_pos hcon, if_neg hssne, hsplit]
    rfl
  · simp only [dayPhrases]
    rw [if_neg hne, if_pos hcon, hsplit]
    rfl
  · simp only [monthPhrases]
    rw [if_neg hne, if_neg (fun hx => hdig hx.1), if_neg hcomma]
  · simp only [weekdayPhrases]
    rw [if_neg hne, if_neg (fun hx => hdig hx.1), if_neg hcomma]
  · intro name lo hi
    simp only [explain_field]
    rw [if_neg hne, if_pos hcon, if_neg hssne, hsplit]
    rfl

/-- Witness for C8 (amended) at the concrete field `"2/3"`. -/
theorem C8_witness :
    minutePhrases "2/3" = .ok ["every 3 minutes starting at minute 2"] ∧
    explain_field "2/3" "minute" 0 59 = .ok "Every 3 minutes starting from 2" := by
  have h := C8_step_field "2" "3" (by decide) (by decide) (by decide)
    (by decide) (by decide)
  refine ⟨?_, ?_⟩
  · rw [show ("2/3" : String) = "2" ++ "/" ++ "3" from rfl, h.1]
    rfl
  · rw [show ("2/3" : String) = "2" ++ "/" ++ "3" from rfl,
      h.2.2.2.2.2 "minute" 0 59]
    rfl

/-- Dropping leading whitespace from a list ending in `#` leaves a reversed
list headed by `#`. -/
theorem rev_dropWhile_hash :
    ∀ (l : List Char), ∃ t, (List.dropWhile isPyWs (l ++ ['#'])).reverse = '#' :: t := by
  intro l
  induction l with
  | nil => exact ⟨[], rfl⟩
  | cons c l ih =>
    by_cases hc : isPyWs c = true
    · rw [List.cons_append, List.dropWhile_cons, if_pos hc]
      exact ih
    · rw [List.cons_append, List.dropWhile_cons, if_neg hc]
      exact ⟨l.reverse ++ [c], by simp⟩

/-- A raw line starting with `#` strips to a nonempty line still starting
with `#`. -/
theorem pyStrip_hash (line : String) (h : startsWithHash line = true) :
    startsWithHash (pyStrip line) = true ∧ pyStrip line ≠ "" := by
  unfold startsWithHash at h
  rcases hd : line.data with _ | ⟨c, rest⟩
  · rw [hd] at h; cases h
  · rw [hd] at h
    have hc : c = '#' := by simpa using h
    subst hc
    unfold pyStrip stripChars
    rw [hd, List.dropWhile_cons, if_neg (by decide), List.reverse_cons]
    obtain ⟨t, ht⟩ := rev_dropWhile_hash rest.reverse
    constructor
    · unfold startsWithHash
      rw [show (String.mk ((List.dropWhile isPyWs (rest.reverse ++ ['#'])).reverse)).data =
        (List.dropWhile isPyWs (rest.reverse ++ ['#'])).reverse from rfl, ht]
      simp
    · intro hemp
      have hdata : (List.dropWhile isPyWs (rest.reverse ++ ['#'])).reverse = [] :=
        congrArg String.data hemp
      rw [ht] at hdata
      cases hdata

/-- Alignment of the `get_cron_jobs` scan with the `delete_cron_job` scan on
canonical tables: the entry emitted at list position `i` (with the job
counter started at `n`) corresponds to the raw line at which the deletion
counter, started at `n`, reaches `n + i`. -/
theorem jobs_delete_align (now : Nat) :
    ∀ (lines : List String), canonTable lines = true →
    ∀ (cmt : String) (n i : Nat) (e : CronJob),
      (jobsAux now lines cmt n)[i]? = some e →
      ∃ l, deletedLineAux lines n (n + i) = some l ∧ pyStrip l = e.full_line := by
  intro lines
  induction lines with
  | nil => intro _ cmt n i e he; simp [jobsAux] at he
  | cons line rest ih =>
    intro hcanon cmt n i e he
    rw [canonTable, List.all_cons, Bool.and_eq_true] at hcanon
    obtain ⟨hcl, hcr⟩ := hcanon
    by_cases hblank : pyStrip line = ""
    · have hdc : delCounts line = false := by
        simp [delCounts, hblank]
      simp only [jobsAux, if_pos hblank] at he
      simp only [deletedLineAux, hdc, Bool.false_eq_true, if_false]
      exact ih hcr "" n i e he
    · by_cases hhash : startsWithHash line = true
      · obtain ⟨hsh, _⟩ := pyStrip_hash line hhash
        have hdc : delCounts line = false := by
          simp [delCounts, hhash]
        simp only [jobsAux, if_neg hblank, if_pos hsh] at he
        simp only [deletedLineAux, hdc, Bool.false_eq_true, if_false]
        exact ih hcr _ n i e he
      · have hC : (!startsWithHash (pyStrip line) &&
            decide (5 ≤ (pySplitWs (pyStrip line)).length)) = true := by
          rw [canonLine] at hcl
          simp only [Bool.or_eq_true] at hcl
          rcases hcl with (hA | hB) | hC
          · exact absurd (of_decide_eq_true hA) hblank
          · exact absurd hB hhash
          · exact hC
        have hC' := hC
        rw [Bool.and_eq_true] at hC'
        obtain ⟨hC1, hC2⟩ := hC' 
        have hshf : startsWithHash (pyStrip line) = false := by
          rwa [Bool.not_eq_true'] at hC1
        have htok : 5 ≤ (pySplitWs (pyStrip line)).length := of_decide_eq_true hC2
        have hsh : ¬ startsWithHash (pyStrip line) = true := by
          simp [hshf]
        have hdc : delCounts line = true := by
          simp only [delCounts, Bool.and_eq_true, Bool.not_eq_true']
          constructor
          · simpa using hblank
          · simpa using hhash
        simp only [jobsAux, if_neg hblank, if_neg hsh, if_pos htok] at he
        simp only [deletedLineAux, hdc, if_true]
        cases i with
        | zero =>
          rw [List.getElem?_cons_zero] at he
          have hfull : e.full_line = pyStrip line := by
            rw [← Option.some_inj.mp he]
          refine ⟨line, ?_, hfull.symm⟩
          rw [if_pos (by omega)]
        | succ i' =>
          rw [List.getElem?_cons_succ] at he
          rw [if_neg (by omega)]
          have harith : n + (i' + 1) = (n + 1) + i' := by omega
          rw [harith]
          exact ih hcr "" (n + 1) i' e he

/-- C2 (amended): on a canonical table (every line blank, a `#`-headed
comment, or an entry line with at least five tokens), the raw line dropped
by Delete at index `i` is exactly the line whose trimmed content is the
`full_line` of the entry that List assigns index `i`.  (On non-canonical
tables the two scans disagree, see the counterexample.) -/
theorem C2_delete_matches_list (now : Nat) (lines : List String)
    (hcanon : canonTable lines = true) (i : Nat) (e : CronJob)
    (he : (jobsAux now lines "" 0)[i]? = some e) :
    ∃ l, deletedLine lines i = some l ∧ pyStrip l = e.full_line := by
  have h := jobs_delete_align now lines hcanon "" 0 i e he
  simpa [deletedLine] using h

/-- Witness for C2 (amended) on a two-line canonical table. -/
theorem C2_witness :
    ∃ l, deletedLine ["#note", "5 4 3 2 1 run"] 0 = some l ∧
      pyStrip l = (((jobsAux 0 ["#note", "5 4 3 2 1 run"] "" 0).getD 0
        ⟨0, "", "", "", "", "", []⟩)).full_line :=
  C2_delete_matches_list 0 ["#note", "5 4 3 2 1 run"] (by decide) 0 _ (by decide)

/-- Counterexample for C2 as stated: on a table whose first line has fewer
than five tokens, Delete(0) drops that short line while List assigns index
0 to the real entry line. -/
theorem C2_cex :
    (jobsAux 0 ["x", "0 0 * * * y"] "" 0).map (fun j => j.full_line) =
      ["0 0 * * * y"] ∧
    deletedLine ["x", "0 0 * * * y"] 0 = some "x" ∧
    ("x" : String) ≠ "0 0 * * * y" := by
  refine ⟨by decide, by decide, by decide⟩

/-- Scanning a whitespace-free run accumulates it in reverse. -/
theorem wsTok_scan :
    ∀ (t : List Char), (∀ ch ∈ t, isPyWs ch = false) →
      ∀ (r acc : List Char), wsTokensAux (t ++ r) acc = wsTokensAux r (t.reverse ++ acc) := by
  intro t
  induction t with
  | nil => intro _ r acc; simp
  | cons ch t ih =>
    intro hws r acc
    have hch : isPyWs ch = false := hws ch (by simp)
    rw [List.cons_append]
    simp only [wsTokensAux, hch, Bool.false_eq_true, if_false]
    rw [ih (fun c hc => hws c (by simp [hc])) r (ch :: acc)]
    simp

/-- Every token produced by the whitespace scan is nonempty and
whitespace-free (given a whitespace-free accumulator). -/
theorem wsTokens_tok :
    ∀ (l acc : List Char), (∀ ch ∈ acc, isPyWs ch = false) →
      ∀ t ∈ wsTokensAux l acc, t ≠ [] ∧ ∀ ch ∈ t, isPyWs ch = false := by
  intro l
  induction l with
  | nil =>
    intro acc hacc t ht
    simp only [wsTokensAux] at ht
    by_cases hne : acc = []
    · rw [if_pos hne] at ht; cases ht
    · rw [if_neg hne] at ht
      rcases List.mem_singleton.mp ht with rfl
      refine ⟨by simpa using hne, fun ch hch => hacc ch (by simpa using hch)⟩
  | cons c cs ih =>
    intro acc hacc t ht
    simp only [wsTokensAux] at ht
    by_cases hc : isPyWs c = true
    · rw [if_pos hc] at ht
      by_cases hne : acc = []
      · rw [if_pos hne] at ht
        exact ih [] (by simp) t ht
      · rw [if_neg hne] at ht
        rcases List.mem_cons.mp ht with rfl | ht'
        · refine ⟨by simpa using hne, fun ch hch => hacc ch (by simpa using hch)⟩
        · exact ih [] (by simp) t ht'
    · rw [if_neg hc] at ht
      refine ih (c :: acc) ?_ t ht
      intro ch hch
      rcases List.mem_cons.mp hch with rfl | hch'
      · simpa using hc
      · exact hacc ch hch'

/-- Joining whitespace-free nonempty tokens with single spaces and
re-splitting recovers the tokens. -/
theorem pySplitWs_join :
    ∀ (ts : List String),
      (∀ t ∈ ts, t.data ≠ [] ∧ ∀ ch ∈ t.data, isPyWs ch = false) →
      pySplitWs (joinStr " " ts) = ts := by
  intro ts
  induction ts with
  | nil => intro _; rfl
  | cons t tl ih =>
    intro hts
    obtain ⟨htne, htws⟩ := hts t (by simp)
    cases tl with
    | nil =>
      show pySplitWs t = [t]
      unfold pySplitWs
      rw [show t.data = t.data ++ [] by simp, wsTok_scan t.data htws [] []]
      simp only [wsTokensAux, List.append_nil]
      rw [if_neg (by simpa using htne)]
      simp
    | cons y tl' =>
      show pySplitWs (t ++ " " ++ joinStr " " (y :: tl')) = t :: y :: tl'
      unfold pySplitWs
      rw [String.data_append, String.data_append,
        show (" " : String).data = [' '] from rfl, List.append_assoc,
        wsTok_scan t.data htws _ []]
      rw [show ([' '] ++ (joinStr " " (y :: tl')).data) =
        ' ' :: (joinStr " " (y :: tl')).data from rfl]
      simp only [wsTokensAux, show isPyWs ' ' = true from rfl, if_true]
      rw [if_neg (by simpa using htne)]
      simp only [List.append_nil, List.reverse_reverse, List.map_cons]
      rw [show String.mk t.data = t from rfl]
      exact congrArg (List.cons t) (ih (fun t' ht' => hts t' (by simp [ht'])))

/-- A list whose first and last characters are not whitespace strips to
itself. -/
theorem stripChars_eq_self (l : List Char)
    (hhead : ∀ ch, l.head? = some ch → isPyWs ch = false)
    (hlast : ∀ ch, l.getLast? = some ch → isPyWs ch = false) :
    stripChars l = l := by
  unfold stripChars
  have hfront : List.dropWhile isPyWs l = l := by
    cases l with
    | nil => rfl
    | cons c t =>
      rw [List.dropWhile_cons, if_neg (by simp [hhead c rfl])]
  rw [hfront]
  have hback : List.dropWhile isPyWs l.reverse = l.reverse := by
    cases hrev : l.reverse with
    | nil => rfl
    | cons d t' =>
      have hd : l.getLast? = some d := by
        rw [← List.head?_reverse, hrev]; rfl
      rw [List.dropWhile_cons, if_neg (by simp [hlast d hd])]
  rw [hback, List.reverse_reverse]

/-- If dropping leading whitespace changes nothing, the head is not
whitespace. -/
theorem dropWhile_self_head (p : Char → Bool) (l : List Char)
    (h : List.dropWhile p l = l) :
    ∀ ch, l.head? = some ch → p ch = false := by
  intro ch hch
  cases l with
  | nil => cases hch
  | cons c t =>
    have hc : c = ch := by simpa using hch
    subst hc
    by_cases hpc : p c = true
    · rw [List.dropWhile_cons, if_pos hpc] at h
      have hlen := congrArg List.length h
      have := List.Sublist.length_le (List.dropWhile_sublist (l := t) p)
      simp at hlen
      omega
    · simpa using hpc

/-- A string equal to its own strip drops no characters at either end. -/
theorem stripChars_self_parts (l : List Char) (h : stripChars l = l) :
    List.dropWhile isPyWs l = l ∧ List.dropWhile isPyWs l.reverse = l.reverse := by
  have hsub1 := List.Sublist.length_le (List.dropWhile_sublist (l := l) isPyWs)
  have hsub2 := List.Sublist.length_le
    (List.dropWhile_sublist (l := (List.dropWhile isPyWs l).reverse) isPyWs)
  have hlen := congrArg List.length h
  unfold stripChars at hlen
  simp only [List.length_reverse] at hlen hsub2
  have hfront : List.dropWhile isPyWs l = l :=
    List.Sublist.eq_of_length (List.dropWhile_sublist isPyWs) (by omega)
  refine ⟨hfront, ?_⟩
  unfold stripChars at h
  rw [hfront] at h
  have := congrArg List.reverse h
  simpa using this

/-- Appending a trailing whitespace character does not change the strip. -/
theorem stripChars_snoc_ws (l : List Char) (w : Char) (hw : isPyWs w = true) :
    stripChars (l ++ [w]) = stripChars l := by
  unfold stripChars
  rw [List.dropWhile_append]
  by_cases he : (List.dropWhile isPyWs l).isEmpty = true
  · rw [if_pos he]
    have h1 : List.dropWhile isPyWs [w] = ([] : List Char) := by
      rw [show [w] = w :: ([] : List Char) from rfl, List.dropWhile_cons, if_pos hw]
      rfl
    rw [h1, List.isEmpty_iff.mp he]
  · rw [if_neg he]
    rw [List.reverse_append, show ([w].reverse : List Char) = [w] from rfl]
    rw [show ([w] : List Char) ++ (List.dropWhile isPyWs l).reverse =
      w :: (List.dropWhile isPyWs l).reverse from rfl]
    rw [List.dropWhile_cons, if_pos hw]

/-- Head character of a whitespace-joined token list. -/
theorem joinStr_sp_head (t : String) (tl : List String) (ht : t.data ≠ []) :
    (joinStr " " (t :: tl)).data.head? = t.data.head? := by
  cases tl with
  | nil => rfl
  | cons y tl' =>
    show (t ++ " " ++ joinStr " " (y :: tl')).data.head? = _
    rw [String.data_append, String.data_append]
    rcases htd : t.data with _ | ⟨c, r⟩
    · exact absurd htd ht
    · simp

/-- The optional last element of a list is a member. -/
theorem getLast?_mem' {α : Type} :
    ∀ (l : List α) (a : α), l.getLast? = some a → a ∈ l := by
  intro l
  induction l with
  | nil => intro a h; cases h
  | cons x tl ih =>
    intro a h
    cases tl with
    | nil =>
      have : x = a := by simpa using h
      simp [this]
    | cons y tl' =>
      rw [List.getLast?_cons_cons] at h
      exact List.mem_cons_of_mem _ (ih a h)

/-- Last character of a whitespace-joined token list. -/
theorem joinStr_sp_last :
    ∀ (ts : List String) (t : String), ts ≠ [] →
      (∀ u ∈ ts, u.data ≠ []) → ts.getLast? = some t →
      (joinStr " " ts).data.getLast? = t.data.getLast? := by
  intro ts
  induction ts with
  | nil => intro t h; cases h rfl
  | cons x tl ih =>
    intro t _ hne hlast
    cases tl with
    | nil =>
      have : x = t := by simpa using hlast
      subst this
      rfl
    | cons y tl' =>
      have hlast' : (y :: tl').getLast? = some t := by
        rwa [List.getLast?_cons_cons] at hlast
      show (x ++ " " ++ joinStr " " (y :: tl')).data.getLast? = _
      rw [String.data_append]
      rw [List.getLast?_append]
      rw [ih t (by simp) (fun u hu => hne u (by simp [hu])) hlast']
      have hjne : (joinStr " " (y :: tl')).data ≠ [] := by
        have h1 := joinStr_sp_head y tl' (hne y (by simp))
        intro hc
        rw [hc] at h1
        rcases hyd : y.data with _ | ⟨c, r⟩
        · exact hne y (by simp) hyd
        · rw [hyd] at h1; cases h1
      have htne : t.data ≠ [] :=
        hne t (List.mem_cons_of_mem _ (getLast?_mem' _ _ hlast'))
      rcases hts : t.data.getLast? with _ | ch
      · exact absurd (List.getLast?_eq_none_iff.mp hts) htne
      · simp

/-- A string equal to the space-join of its own whitespace split strips to
itself. -/
theorem canon_strip_self (x : String)
    (hx : joinStr " " (pySplitWs x) = x) : pyStrip x = x := by
  have htoks := wsTokens_tok x.data [] (by simp)
  rcases hts : pySplitWs x with _ | ⟨t, tl⟩
  · rw [hts] at hx
    rw [← hx]
    rfl
  · have htokfacts : ∀ u ∈ t :: tl, u.data ≠ [] ∧ ∀ ch ∈ u.data, isPyWs ch = false := by
      intro u hu
      have hu' : u.data ∈ wsTokensAux x.data [] := by
        have : u ∈ (wsTokensAux x.data []).map String.mk := by rw [← pySplitWs, hts]; exact hu
        rcases List.mem_map.mp this with ⟨d, hd, hdu⟩
        rw [← hdu]
        exact hd
      exact htoks u.data hu'
    obtain ⟨tlast, hlast⟩ : ∃ u, (t :: tl).getLast? = some u :=
      ⟨(t :: tl).getLast (by simp), List.getLast?_eq_getLast _ _⟩
    apply String.ext
    show stripChars x.data = x.data
    apply stripChars_eq_self
    · intro ch hch
      rw [← hx, hts] at hch
      rw [joinStr_sp_head t tl (htokfacts t (by simp)).1] at hch
      exact (htokfacts t (by simp)).2 ch (List.mem_of_mem_head? hch)
    · intro ch hch
      rw [← hx, hts] at hch
      rw [joinStr_sp_last (t :: tl) tlast (by simp)
        (fun u hu => (htokfacts u hu).1) hlast] at hch
      exact (htokfacts tlast (getLast?_mem' _ _ hlast)).2 ch
        (getLast?_mem' _ _ hch)

/-- Every character of a space-join is a space or a token character. -/
theorem joinStr_sp_mem :
    ∀ (ts : List String) (ch : Char), ch ∈ (joinStr " " ts).data →
      ch = ' ' ∨ ∃ t ∈ ts, ch ∈ t.data := by
  intro ts
  induction ts with
  | nil => intro ch hch; cases hch
  | cons t tl ih =>
    intro ch hch
    cases tl with
    | nil => exact Or.inr ⟨t, by simp, hch⟩
    | cons y tl' =>
      rw [show joinStr " " (t :: y :: tl') = t ++ " " ++ joinStr " " (y :: tl')
        from rfl, String.data_append, String.data_append] at hch
      rcases List.mem_append.mp hch with h1 | h2
      · rcases List.mem_append.mp h1 with h3 | h4
        · exact Or.inr ⟨t, by simp, h3⟩
        · left
          simpa using h4
      · rcases ih ch h2 with h5 | ⟨u, hu, hchu⟩
        · exact Or.inl h5
        · exact Or.inr ⟨u, by simp [hu], hchu⟩

/-- A whitespace-canonical string contains no newline. -/
theorem canon_no_nl (x : String)
    (hx : joinStr " " (pySplitWs x) = x) : '\n' ∉ x.data := by
  intro hmem
  rw [← hx] at hmem
  rcases joinStr_sp_mem _ '\n' hmem with h1 | ⟨t, ht, hcht⟩
  · cases h1
  · have := wsTokens_tok x.data [] (by simp)
    have ht' : t.data ∈ wsTokensAux x.data [] := by
      rcases List.mem_map.mp (by exact ht : t ∈ (wsTokensAux x.data []).map String.mk)
        with ⟨d, hd, hdu⟩
      rw [← hdu]
      exact hd
    have := (this t.data ht').2 '\n' hcht
    exact absurd this (by decide)

/-- Every piece of a single-character split is free of the separator. -/
theorem splitCharAux_sep_free (sep : Char) :
    ∀ (l acc : List Char), sep ∉ acc →
      ∀ p ∈ splitCharAux sep l acc, sep ∉ p := by
  intro l
  induction l with
  | nil =>
    intro acc hacc p hp
    rcases List.mem_singleton.mp hp with rfl
    simpa using hacc
  | cons c cs ih =>
    intro acc hacc p hp
    simp only [splitCharAux] at hp
    by_cases hc : c = sep
    · rw [if_pos hc] at hp
      rcases List.mem_cons.mp hp with rfl | hp'
      · simpa using hacc
      · exact ih [] (by simp) p hp'
    · rw [if_neg hc] at hp
      refine ih (c :: acc) ?_ p hp
      intro hm
      rcases List.mem_cons.mp hm with rfl | hm'
      · exact hc rfl
      · exact hacc hm'

/-- Pieces of `split('\n')` contain no newline. -/
theorem pySplitOn_sep_free (sep : Char) (x : String) :
    ∀ p ∈ pySplitOn sep x, sep ∉ p.data := by
  intro p hp
  rcases List.mem_map.mp hp with ⟨d, hd, hdp⟩
  rw [← hdp]
  exact splitCharAux_sep_free sep x.data [] (by simp) d hd

/-- Join over a nonempty left and right part splits as expected. -/
theorem joinStr_append (sep : String) :
    ∀ (xs ys : List String), xs ≠ [] → ys ≠ [] →
      joinStr sep (xs ++ ys) = joinStr sep xs ++ sep ++ joinStr sep ys := by
  intro xs
  induction xs with
  | nil => intro ys h; cases h rfl
  | cons x xs ih =>
    intro ys _ hys
    cases xs with
    | nil =>
      cases ys with
      | nil => cases hys rfl
      | cons y ys' => rfl
    | cons x2 xs2 =>
      show joinStr sep (x :: x2 :: (xs2 ++ ys)) = _
      rw [show joinStr sep (x :: x2 :: (xs2 ++ ys)) =
        x ++ sep ++ joinStr sep (x2 :: (xs2 ++ ys)) from rfl]
      rw [show (x2 :: (xs2 ++ ys) : List String) = (x2 :: xs2) ++ ys from rfl]
      rw [ih ys (by simp) hys]
      rw [show joinStr sep (x :: x2 :: xs2) = x ++ sep ++ joinStr sep (x2 :: xs2)
        from rfl]
      simp [String.append_assoc]

/-- Appending one empty piece to a nonempty join appends one separator. -/
theorem joinStr_snoc_empty (sep : String) :
    ∀ (xs : List String), xs ≠ [] →
      joinStr sep (xs ++ [""]) = joinStr sep xs ++ sep := by
  intro xs hxs
  rw [joinStr_append sep xs [""] hxs (by simp)]
  show joinStr sep xs ++ sep ++ "" = _
  simp

/-- Splitting a separator-join of separator-free pieces recovers the
pieces. -/
theorem pySplitOn_join (sep : Char) (sepStr : String)
    (hs : sepStr.data = [sep]) :
    ∀ (ys : List String), ys ≠ [] → (∀ y ∈ ys, sep ∉ y.data) →
      pySplitOn sep (joinStr sepStr ys) = ys := by
  intro ys
  induction ys with
  | nil => intro h; cases h rfl
  | cons y tl ih =>
    intro _ hfree
    cases tl with
    | nil =>
      show pySplitOn sep y = [y]
      unfold pySplitOn
      rw [splitCharAux_no_sep sep y.data [] (hfree y (by simp))]
      simp
    | cons z tl' =>
      show pySplitOn sep (y ++ sepStr ++ joinStr sepStr (z :: tl')) = _
      unfold pySplitOn
      rw [String.data_append, String.data_append, hs, List.append_assoc]
      rw [show ([sep] ++ (joinStr sepStr (z :: tl')).data : List Char) =
        sep :: (joinStr sepStr (z :: tl')).data from rfl]
      rw [splitCharAux_sep sep y.data _ [] (hfree y (by simp))]
      simp only [List.reverse_nil, List.nil_append, List.map_cons]
      rw [show String.mk y.data = y from rfl]
      exact congrArg (List.cons y)
        (ih (by simp) (fun u hu => hfree u (by simp [hu])))

/-- Splitting the installed text (lines joined by newlines plus a final
newline) recovers the staged lines followed by one empty line. -/
theorem pySplitOn_writeText (lines : List String) (hne : lines ≠ [])
    (hfree : ∀ l ∈ lines, '\n' ∉ l.data) :
    pySplitOn '\n' (writeText lines) = lines ++ [""] := by
  unfold writeText
  rw [← joinStr_snoc_empty "\n" lines hne]
  refine pySplitOn_join '\n' "\n" rfl (lines ++ [""]) (by simp) ?_
  intro y hy
  rcases List.mem_append.mp hy with h1 | h2
  · exact hfree y h1
  · rcases List.mem_singleton.mp h2 with rfl
    simp

/-- The `get_cron_jobs` scan over a concatenation: the second part is
scanned with the comment state and entry counter left by the first. -/
theorem jobsAux_append (now : Nat) :
    ∀ (xs ys : List String) (cmt : String) (n : Nat),
      jobsAux now (xs ++ ys) cmt n =
        jobsAux now xs cmt n ++
          jobsAux now ys (jobsComment xs cmt)
            (n + (jobsAux now xs cmt n).length) := by
  intro xs
  induction xs with
  | nil => intro ys cmt n; simp [jobsAux, jobsComment]
  | cons line rest ih =>
    intro ys cmt n
    rw [List.cons_append]
    by_cases hblank : pyStrip line = ""
    · simp only [jobsAux, jobsComment, if_pos hblank]
      exact ih ys "" n
    · by_cases hhash : startsWithHash (pyStrip line) = true
      · simp only [jobsAux, jobsComment, if_neg hblank, if_pos hhash]
        exact ih ys _ n
      · by_cases htok : 5 ≤ (pySplitWs (pyStrip line)).length
        · simp only [jobsAux, jobsComment, if_neg hblank, if_neg hhash, if_pos htok]
          rw [ih ys "" (n + 1)]
          simp only [List.cons_append, List.length_cons]
          have harith : n + 1 + (jobsAux now rest "" (n + 1)).length =
              n + ((jobsAux now rest "" (n + 1)).length + 1) := by omega
          rw [harith]
        · simp only [jobsAux, jobsComment, if_neg hblank, if_neg hhash, if_neg htok]
          exact ih ys "" n

/-- Scanning the three appended lines (comment line, entry line, trailing
empty line) emits exactly the new entry, whatever comment state and counter
the scan arrives with. -/
theorem jobsAux_tail (now : Nat) (cmt : String) (k : Nat) (s c m : String)
    (hs5 : (pySplitWs s).length = 5)
    (hs : joinStr " " (pySplitWs s) = s)
    (hsh : startsWithHash s = false)
    (hc : joinStr " " (pySplitWs c) = c)
    (hm0 : m ≠ "") (hm1 : pyStrip m = m) :
    jobsAux now ["#" ++ m, s ++ " " ++ c, ""] cmt k =
      [{ index := k
         schedule := s
         command := c
         comment := m
         full_line := pyStrip (s ++ " " ++ c)
         description := (parse_cron now s).description
         next_runs := (parse_cron now s).next_runs.take 3 }] := by
  have hmdata : m.data ≠ [] := fun h => hm0 (String.ext h)
  have hmstrip : stripChars m.data = m.data := congrArg String.data hm1
  have hline1 : ("#" ++ m).data = '#' :: m.data := by
    rw [String.data_append]
    rfl
  have hstrip1 : pyStrip ("#" ++ m) = "#" ++ m := by
    apply String.ext
    show stripChars ("#" ++ m).data = ("#" ++ m).data
    rw [hline1]
    apply stripChars_eq_self
    · intro ch hch
      have he : '#' = ch := by simpa using hch
      rw [← he]
      rfl
    · intro ch hch
      have hgl : ('#' :: m.data).getLast? = m.data.getLast? := by
        rcases hmd : m.data with _ | ⟨b, l⟩
        · exact absurd hmd hmdata
        · rw [List.getLast?_cons_cons]
      rw [hgl] at hch
      have hparts := stripChars_self_parts m.data hmstrip
      have hdw := dropWhile_self_head isPyWs m.data.reverse hparts.2 ch
      rw [List.head?_reverse] at hdw
      exact hdw hch
  have hhash1 : startsWithHash (pyStrip ("#" ++ m)) = true := by
    rw [hstrip1]
    unfold startsWithHash
    rw [hline1]
    simp
  have hne1 : ¬ pyStrip ("#" ++ m) = "" := by
    rw [hstrip1]
    intro h
    have hd := congrArg String.data h
    rw [hline1] at hd
    cases hd
  have hpending : pyStrip (strDrop 1 (pyStrip ("#" ++ m))) = m := by
    rw [hstrip1]
    have hdrop : strDrop 1 ("#" ++ m) = m := by
      apply String.ext
      show (("#" ++ m).data).drop 1 = m.data
      rw [hline1]
      rfl
    rw [hdrop, hm1]
  have hts_ne : pySplitWs s ≠ [] := by
    intro h; rw [h] at hs5; cases hs5
  have hs_ne : s.data ≠ [] := by
    intro h
    apply hts_ne
    unfold pySplitWs
    rw [h]
    rfl
  have hstrip_s : pyStrip s = s := canon_strip_self s hs
  have hsline_data : (s ++ " " ++ c).data = s.data ++ ' ' :: c.data := by
    rw [String.data_append, String.data_append]
    simp
  have htokfacts : ∀ (x : String), ∀ u ∈ pySplitWs x,
      u.data ≠ [] ∧ ∀ ch ∈ u.data, isPyWs ch = false := by
    intro x u hu
    rcases List.mem_map.mp hu with ⟨d, hd, hdu⟩
    have hh := wsTokens_tok x.data [] (by simp) d hd
    rw [← hdu]
    exact hh
  have key : ¬ pyStrip (s ++ " " ++ c) = "" ∧
      startsWithHash (pyStrip (s ++ " " ++ c)) = false ∧
      pySplitWs (pyStrip (s ++ " " ++ c)) = pySplitWs s ++ pySplitWs c := by
    by_cases hcm : c = ""
    · subst hcm
      have hstrip_line : pyStrip (s ++ " " ++ "") = s := by
        apply String.ext
        show stripChars (s ++ " " ++ "").data = s.data
        have hd : (s ++ " " ++ "").data = s.data ++ [' '] := by
          rw [hsline_data]
        rw [hd, stripChars_snoc_ws s.data ' ' (by decide)]
        exact congrArg String.data hstrip_s
      refine ⟨by rw [hstrip_line]; exact fun h => hs_ne (congrArg String.data h),
        by rw [hstrip_line]; exact hsh, ?_⟩
      rw [hstrip_line, show pySplitWs "" = [] from rfl, List.append_nil]
    · have htc_ne : pySplitWs c ≠ [] := by
        intro h
        apply hcm
        rw [← hc, h]
        rfl
      have hjoin : joinStr " " (pySplitWs s ++ pySplitWs c) = s ++ " " ++ c := by
        rw [joinStr_append " " _ _ hts_ne htc_ne, hs, hc]
      have hsplit_line : pySplitWs (s ++ " " ++ c) = pySplitWs s ++ pySplitWs c := by
        rw [← hjoin]
        apply pySplitWs_join
        intro t ht
        rcases List.mem_append.mp ht with h1 | h1
        · exact htokfacts s t h1
        · exact htokfacts c t h1
      have hcanon_line : joinStr " " (pySplitWs (s ++ " " ++ c)) = s ++ " " ++ c := by
        rw [hsplit_line, hjoin]
      have hstrip_line : pyStrip (s ++ " " ++ c) = s ++ " " ++ c :=
        canon_strip_self _ hcanon_line
      refine ⟨?_, ?_, ?_⟩
      · rw [hstrip_line]
        intro h
        have hd := congrArg String.data h
        rw [hsline_data] at hd
        rcases hsd : s.data with _ | ⟨a0, l0⟩
        · exact hs_ne hsd
        · rw [hsd] at hd; cases hd
      · rw [hstrip_line]
        unfold startsWithHash
        unfold startsWithHash at hsh
        rw [hsline_data]
        rcases hsd : s.data with _ | ⟨a0, l0⟩
        · exact absurd hsd hs_ne
        · rw [hsd] at hsh
          simpa using hsh
      · rw [hstrip_line]
        exact hsplit_line
  obtain ⟨hlne, hlhash, hlsplit⟩ := key
  have hlhash' : ¬ startsWithHash (pyStrip (s ++ " " ++ c)) = true := by
    simp [hlhash]
  have hlen : 5 ≤ (pySplitWs (pyStrip (s ++ " " ++ c))).length := by
    rw [hlsplit]
    simp [hs5]
  have hsched : joinStr " " ((pySplitWs (pyStrip (s ++ " " ++ c))).take 5) = s := by
    rw [hlsplit, ← hs5, List.take_left]
    exact hs
  have hcmd : joinStr " " ((pySplitWs (pyStrip (s ++ " " ++ c))).drop 5) = c := by
    rw [hlsplit, ← hs5, List.drop_left]
    exact hc
  simp only [jobsAux, if_neg hne1, if_pos hhash1, hpending, if_neg hlne,
    if_neg hlhash', if_pos hlen, hsched, hcmd, if_neg hm0,
    if_pos (show pyStrip "" = "" from rfl)]

/-- `List.dropWhile` skips a prefix all of whose elements satisfy the
predicate. -/
theorem dropWhile_forall_append (p : Char → Bool) :
    ∀ (w l : List Char), (∀ c ∈ w, p c = true) →
      List.dropWhile p (w ++ l) = List.dropWhile p l := by
  intro w
  induction w with
  | nil => intro l _; rfl
  | cons c w ih =>
    intro l hw
    rw [List.cons_append, List.dropWhile_cons, if_pos (hw c (by simp))]
    exact ih l (fun d hd => hw d (List.mem_cons_of_mem c hd))

/-- `strip` ignores an all-whitespace prefix. -/
theorem stripChars_ws_head (w l : List Char)
    (hw : ∀ c ∈ w, isPyWs c = true) :
    stripChars (w ++ l) = stripChars l := by
  unfold stripChars
  rw [dropWhile_forall_append isPyWs w l hw]

/-- `strip` of an all-whitespace list is empty. -/
theorem stripChars_all_ws (l : List Char) (hl : ∀ c ∈ l, isPyWs c = true) :
    stripChars l = [] := by
  have h1 : List.dropWhile isPyWs l = [] := by
    have h2 := dropWhile_forall_append isPyWs l [] hl
    rw [List.append_nil] at h2
    rw [h2]
    rfl
  unfold stripChars
  rw [h1]
  rfl

/-- Mapping `strip` over the split pieces ignores an all-whitespace tail of
the accumulator (the accumulator is kept reversed, so its tail holds the
oldest characters, which open the next emitted piece). -/
theorem splitCharAux_strip_acc (sep : Char) (w : List Char)
    (hw : ∀ c ∈ w, isPyWs c = true) :
    ∀ (l acc : List Char),
      (splitCharAux sep l (acc ++ w)).map stripChars =
        (splitCharAux sep l acc).map stripChars := by
  intro l
  induction l with
  | nil =>
    intro acc
    simp only [splitCharAux, List.map_cons, List.map_nil, List.reverse_append]
    rw [stripChars_ws_head w.reverse acc.reverse
      (fun d hd => hw d (List.mem_reverse.mp hd))]
  | cons c cs ih =>
    intro acc
    by_cases hc : c = sep
    · simp only [splitCharAux]
      rw [if_pos hc, if_pos hc]
      simp only [List.map_cons, List.reverse_append]
      rw [stripChars_ws_head w.reverse acc.reverse
        (fun d hd => hw d (List.mem_reverse.mp hd))]
    · simp only [splitCharAux]
      rw [if_neg hc, if_neg hc]
      have h1 : c :: (acc ++ w) = (c :: acc) ++ w := rfl
      rw [h1]
      exact ih (c :: acc)

/-- An all-whitespace prefix of the split input contributes, after the
per-piece `strip`, only empty pieces in front. -/
theorem splitCharAux_ws_front (sep : Char) :
    ∀ (p : List Char), (∀ c ∈ p, isPyWs c = true) →
      ∀ (rest acc : List Char), (∀ c ∈ acc, isPyWs c = true) →
        ∃ k, (splitCharAux sep (p ++ rest) acc).map stripChars =
          List.replicate k [] ++ (splitCharAux sep rest []).map stripChars := by
  intro p
  induction p with
  | nil =>
    intro _ rest acc hacc
    refine ⟨0, ?_⟩
    rw [List.nil_append, List.replicate_zero, List.nil_append]
    have h := splitCharAux_strip_acc sep acc hacc rest []
    rw [List.nil_append] at h
    exact h
  | cons c p ih =>
    intro hp rest acc hacc
    have hcw : isPyWs c = true := hp c (by simp)
    have hp' : ∀ d ∈ p, isPyWs d = true :=
      fun d hd => hp d (List.mem_cons_of_mem c hd)
    by_cases hc : c = sep
    · obtain ⟨k, hk⟩ := ih hp' rest [] (by intro d hd; simp at hd)
      refine ⟨k + 1, ?_⟩
      rw [List.cons_append]
      simp only [splitCharAux]
      rw [if_pos hc]
      simp only [List.map_cons]
      rw [hk, stripChars_all_ws acc.reverse
        (fun d hd => hacc d (List.mem_reverse.mp hd))]
      rfl
    · have hacc' : ∀ d ∈ c :: acc, isPyWs d = true := by
        intro d hd
        rcases List.mem_cons.mp hd with rfl | hd2
        · exact hcw
        · exact hacc d hd2
      obtain ⟨k, hk⟩ := ih hp' rest (c :: acc) hacc'
      refine ⟨k, ?_⟩
      rw [List.cons_append]
      simp only [splitCharAux]
      rw [if_neg hc]
      exact hk

/-- Splitting an all-whitespace list yields the stripped accumulator
followed by pieces that strip to empty. -/
theorem splitCharAux_ws_all (sep : Char) :
    ∀ (q : List Char), (∀ c ∈ q, isPyWs c = true) →
      ∀ (acc : List Char), ∃ k,
        (splitCharAux sep q acc).map stripChars =
          stripChars acc.reverse :: List.replicate k [] := by
  intro q
  induction q with
  | nil =>
    intro _ acc
    exact ⟨0, rfl⟩
  | cons c q ih =>
    intro hq acc
    have hcw : isPyWs c = true := hq c (by simp)
    have hq' : ∀ d ∈ q, isPyWs d = true :=
      fun d hd => hq d (List.mem_cons_of_mem c hd)
    by_cases hc : c = sep
    · obtain ⟨k, hk⟩ := ih hq' []
      refine ⟨k + 1, ?_⟩
      simp only [splitCharAux]
      rw [if_pos hc]
      simp only [List.map_cons]
      rw [hk]
      rfl
    · obtain ⟨k, hk⟩ := ih hq' (c :: acc)
      refine ⟨k, ?_⟩
      simp only [splitCharAux]
      rw [if_neg hc]
      rw [hk]
      have h1 : (c :: acc).reverse = acc.reverse ++ [c] := by simp
      rw [h1, stripChars_snoc_ws acc.reverse c hcw]

/-- An all-whitespace suffix of the split input contributes, after the
per-piece `strip`, only empty pieces at the back. -/
theorem splitCharAux_ws_back (sep : Char) (q : List Char)
    (hq : ∀ c ∈ q, isPyWs c = true) :
    ∀ (l acc : List Char), ∃ k,
      (splitCharAux sep (l ++ q) acc).map stripChars =
        (splitCharAux sep l acc).map stripChars ++ List.replicate k [] := by
  intro l
  induction l with
  | nil =>
    intro acc
    obtain ⟨k, hk⟩ := splitCharAux_ws_all sep q hq acc
    refine ⟨k, ?_⟩
    rw [List.nil_append, hk]
    rfl
  | cons c cs ih =>
    intro acc
    by_cases hc : c = sep
    · obtain ⟨k, hk⟩ := ih []
      refine ⟨k, ?_⟩
      rw [List.cons_append]
      simp only [splitCharAux]
      rw [if_pos hc, if_pos hc]
      simp only [List.map_cons]
      rw [hk]
      rfl
    · obtain ⟨k, hk⟩ := ih (c :: acc)
      refine ⟨k, ?_⟩
      rw [List.cons_append]
      simp only [splitCharAux]
      rw [if_neg hc, if_neg hc]
      exact hk

/-- Stripping the text before splitting on newlines only removes pieces at
the two ends that were blank anyway: after a per-piece strip the two reads
agree up to leading and trailing empty pieces. -/
theorem split_strip_decomp (t : String) :
    ∃ k₁ k₂, (pySplitOn '\n' t).map pyStrip =
      List.replicate k₁ "" ++
        ((pySplitOn '\n' (pyStrip t)).map pyStrip ++ List.replicate k₂ "") := by
  have hp : ∀ c ∈ t.data.takeWhile isPyWs, isPyWs c = true :=
    fun c hc => List.mem_takeWhile_imp hc
  have hq : ∀ c ∈ ((t.data.dropWhile isPyWs).reverse.takeWhile isPyWs).reverse,
      isPyWs c = true :=
    fun c hc => List.mem_takeWhile_imp (List.mem_reverse.mp hc)
  have hd : t.data.dropWhile isPyWs =
      stripChars t.data ++
        ((t.data.dropWhile isPyWs).reverse.takeWhile isPyWs).reverse := by
    calc t.data.dropWhile isPyWs
        = (t.data.dropWhile isPyWs).reverse.reverse := (List.reverse_reverse _).symm
      _ = ((t.data.dropWhile isPyWs).reverse.takeWhile isPyWs ++
            (t.data.dropWhile isPyWs).reverse.dropWhile isPyWs).reverse := by
          rw [List.takeWhile_append_dropWhile isPyWs
            (t.data.dropWhile isPyWs).reverse]
      _ = ((t.data.dropWhile isPyWs).reverse.dropWhile isPyWs).reverse ++
            ((t.data.dropWhile isPyWs).reverse.takeWhile isPyWs).reverse := by
          rw [List.reverse_append]
      _ = stripChars t.data ++
            ((t.data.dropWhile isPyWs).reverse.takeWhile isPyWs).reverse := rfl
  have ht : t.data = t.data.takeWhile isPyWs ++
      (stripChars t.data ++
        ((t.data.dropWhile isPyWs).reverse.takeWhile isPyWs).reverse) := by
    rw [← hd]
    exact (List.takeWhile_append_dropWhile isPyWs t.data).symm
  obtain ⟨k₁, h₁⟩ := splitCharAux_ws_front '\n' (t.data.takeWhile isPyWs) hp
    (stripChars t.data ++
      ((t.data.dropWhile isPyWs).reverse.takeWhile isPyWs).reverse)
    [] (by intro d hd2; simp at hd2)
  obtain ⟨k₂, h₂⟩ := splitCharAux_ws_back '\n'
    ((t.data.dropWhile isPyWs).reverse.takeWhile isPyWs).reverse hq
    (stripChars t.data) []
  refine ⟨k₁, k₂, ?_⟩
  have hcomp : ∀ (L : List (List Char)),
      (L.map String.mk).map pyStrip = (L.map stripChars).map String.mk := by
    intro L
    rw [List.map_map, List.map_map]
    rfl
  have hdata : (pyStrip t).data = stripChars t.data := rfl
  unfold pySplitOn
  rw [hdata, hcomp, hcomp]
  conv_lhs => rw [ht]
  rw [h₁, h₂]
  rw [List.map_append, List.map_append, List.map_replicate, List.map_replicate]

/-- The job scan reads each raw line only through `strip`, so two line lists
with equal stripped lines produce the same job list. -/
theorem jobsAux_congr_strip (now : Nat) :
    ∀ (l₁ l₂ : List String), l₁.map pyStrip = l₂.map pyStrip →
      ∀ (cmt : String) (k : Nat),
        jobsAux now l₁ cmt k = jobsAux now l₂ cmt k := by
  intro l₁
  induction l₁ with
  | nil =>
    intro l₂ h cmt k
    rcases l₂ with _ | ⟨b, l₂⟩
    · rfl
    · simp at h
  | cons a l₁ ih =>
    intro l₂ h cmt k
    rcases l₂ with _ | ⟨b, l₂⟩
    · simp at h
    · simp only [List.map_cons, List.cons.injEq] at h
      obtain ⟨hab, htail⟩ := h
      simp only [jobsAux, hab]
      by_cases h0 : pyStrip b = ""
      · rw [if_pos h0, if_pos h0]
        exact ih l₂ htail "" k
      · rw [if_neg h0, if_neg h0]
        by_cases h1 : startsWithHash (pyStrip b) = true
        · rw [if_pos h1, if_pos h1]
          exact ih l₂ htail _ k
        · rw [if_neg h1, if_neg h1]
          by_cases h2 : 5 ≤ (pySplitWs (pyStrip b)).length
          · rw [if_pos h2, if_pos h2, ih l₂ htail "" (k + 1)]
          · rw [if_neg h2, if_neg h2]
            exact ih l₂ htail "" k

/-- Leading blank lines are skipped by the job scan. -/
theorem jobsAux_blank_front (now : Nat) :
    ∀ (k : Nat) (rest : List String) (n : Nat),
      jobsAux now (List.replicate k "" ++ rest) "" n = jobsAux now rest "" n := by
  intro k
  induction k with
  | zero => intro rest n; rfl
  | succ k ih =>
    intro rest n
    rw [List.replicate_succ, List.cons_append]
    simp only [jobsAux]
    rw [if_pos (show pyStrip "" = "" from rfl)]
    exact ih rest n

/-- A run of blank lines emits no job entries. -/
theorem jobsAux_blank_nil (now : Nat) :
    ∀ (k : Nat) (cmt : String) (n : Nat),
      jobsAux now (List.replicate k "") cmt n = [] := by
  intro k
  induction k with
  | zero => intro cmt n; rfl
  | succ k ih =>
    intro cmt n
    rw [List.replicate_succ]
    simp only [jobsAux]
    rw [if_pos (show pyStrip "" = "" from rfl)]
    exact ih "" n

/-- Stripping the snapshot before splitting it on newlines (the read done by
`add_cron_job`/`delete_cron_job`) does not change the scanned job list: the
scan strips each line anyway, and the pieces gained or lost at the two ends
are all blank. -/
theorem jobsAux_strip_snapshot (now : Nat) (t : String) :
    jobsAux now (pySplitOn '\n' (pyStrip t)) "" 0 =
      jobsAux now (pySplitOn '\n' t) "" 0 := by
  obtain ⟨k₁, k₂, hK⟩ := split_strip_decomp t
  have hmap : (pySplitOn '\n' t).map pyStrip =
      (List.replicate k₁ "" ++
        (pySplitOn '\n' (pyStrip t) ++ List.replicate k₂ "")).map pyStrip := by
    rw [List.map_append, List.map_append, List.map_replicate, List.map_replicate]
    exact hK
  have hcongr := jobsAux_congr_strip now (pySplitOn '\n' t)
    (List.replicate k₁ "" ++ (pySplitOn '\n' (pyStrip t) ++ List.replicate k₂ ""))
    hmap "" 0
  rw [hcongr, jobsAux_blank_front now k₁ _ 0,
    jobsAux_append now (pySplitOn '\n' (pyStrip t)) (List.replicate k₂ "") "" 0,
    jobsAux_blank_nil now k₂ _ _, List.append_nil]

/-- C9 (amended): a successful Add of a whitespace-canonical 5-token
schedule and whitespace-canonical command, with a nonempty, trimmed,
newline-free comment, on any snapshot, makes the subsequent listing equal to
the previous listing plus exactly one final entry whose schedule, command
and comment equal the Add inputs. -/
theorem C9_add_roundtrip (now : Nat) (snap : Option String) (s c m : String)
    (hs5 : (pySplitWs s).length = 5)
    (hs : joinStr " " (pySplitWs s) = s)
    (hsh : startsWithHash s = false)
    (hc : joinStr " " (pySplitWs c) = c)
    (hm0 : m ≠ "") (hm1 : pyStrip m = m) (hm2 : '\n' ∉ m.data) :
    get_cron_jobs now (add_cron_job snap s c m true).written =
      get_cron_jobs now snap ++
        [{ index := (get_cron_jobs now snap).length
           schedule := s
           command := c
           comment := m
           full_line := pyStrip (s ++ " " ++ c)
           description := (parse_cron now s).description
           next_runs := (parse_cron now s).next_runs.take 3 }] := by
  have hm_free : '\n' ∉ ("#" ++ m).data := by
    intro hx
    rw [String.data_append] at hx
    rcases List.mem_append.mp hx with h1 | h2
    · simp at h1
    · exact hm2 h2
  have hsline_free : '\n' ∉ (s ++ " " ++ c).data := by
    intro hx
    rw [String.data_append, String.data_append] at hx
    rcases List.mem_append.mp hx with h4 | h5
    · rcases List.mem_append.mp h4 with h6 | h7
      · exact canon_no_nl s hs h6
      · simp at h7
    · exact canon_no_nl c hc h5
  rcases snap with _ | t
  · have hadd : addLines [] s c m = ["#" ++ m, s ++ " " ++ c] := by
      unfold addLines
      rw [if_pos hm0]
      rfl
    have hw : (add_cron_job none s c m true).written =
        some (writeText (addLines [] s c m)) := rfl
    rw [hw, hadd]
    have hfree0 : ∀ l ∈ ["#" ++ m, s ++ " " ++ c], '\n' ∉ l.data := by
      intro l hl
      rcases List.mem_cons.mp hl with rfl | h2
      · exact hm_free
      · rcases List.mem_singleton.mp h2 with rfl
        exact hsline_free
    have hsplit := pySplitOn_writeText ["#" ++ m, s ++ " " ++ c] (by simp) hfree0
    show jobsAux now (pySplitOn '\n'
      (writeText ["#" ++ m, s ++ " " ++ c])) "" 0 = _
    rw [hsplit]
    rw [show (["#" ++ m, s ++ " " ++ c] ++ [""] : List String) =
      ["#" ++ m, s ++ " " ++ c, ""] from rfl]
    rw [jobsAux_tail now "" 0 s c m hs5 hs hsh hc hm0 hm1]
    rfl
  · have hadd : addLines (pySplitOn '\n' (pyStrip t)) s c m =
        pySplitOn '\n' (pyStrip t) ++ ["#" ++ m, s ++ " " ++ c] := by
      unfold addLines
      rw [if_pos hm0]
      simp
    have hw : (add_cron_job (some t) s c m true).written =
        some (writeText (addLines (pySplitOn '\n' (pyStrip t)) s c m)) := rfl
    rw [hw, hadd]
    have hfree : ∀ l ∈ pySplitOn '\n' (pyStrip t) ++ ["#" ++ m, s ++ " " ++ c],
        '\n' ∉ l.data := by
      intro l hl
      rcases List.mem_append.mp hl with h1 | h2
      · exact pySplitOn_sep_free '\n' (pyStrip t) l h1
      · rcases List.mem_cons.mp h2 with rfl | h3
        · exact hm_free
        · rcases List.mem_singleton.mp h3 with rfl
          exact hsline_free
    have hsplit := pySplitOn_writeText _ (by simp) hfree
    show jobsAux now (pySplitOn '\n'
      (writeText (pySplitOn '\n' (pyStrip t) ++ ["#" ++ m, s ++ " " ++ c]))) "" 0 = _
    rw [hsplit, List.append_assoc]
    rw [show (["#" ++ m, s ++ " " ++ c] ++ [""] : List String) =
      ["#" ++ m, s ++ " " ++ c, ""] from rfl]
    rw [jobsAux_append now (pySplitOn '\n' (pyStrip t))
      ["#" ++ m, s ++ " " ++ c, ""] "" 0]
    rw [jobsAux_strip_snapshot now t]
    rw [jobsAux_tail now _ _ s c m hs5 hs hsh hc hm0 hm1]
    simp only [Nat.zero_add]
    rfl

/-- Witness for C9 (amended): adding to the one-line table `"0 1 * * * x"`. -/
theorem C9_witness :
    get_cron_jobs 0 (add_cron_job (some "0 1 * * * x") "2 3 * * *" "/bin/y" "note"
        true).written =
      get_cron_jobs 0 (some "0 1 * * * x") ++
        [{ index := (get_cron_jobs 0 (some "0 1 * * * x")).length
           schedule := "2 3 * * *"
           command := "/bin/y"
           comment := "note"
           full_line := pyStrip ("2 3 * * *" ++ " " ++ "/bin/y")
           description := (parse_cron 0 "2 3 * * *").description
           next_runs := (parse_cron 0 "2 3 * * *").next_runs.take 3 }] :=
  C9_add_roundtrip 0 (some "0 1 * * * x") "2 3 * * *" "/bin/y" "note"
    (by decide) (by decide) (by decide) (by decide)
    (by decide) (by decide) (by decide)

/-- Counterexample for C9 as stated: a successful Add whose 5-token
schedule contains a double space is listed back with a normalised schedule
different from the input. -/
theorem C9_cex :
    (pySplitWs "0  0 * * *").length = 5 ∧
    (get_cron_jobs 0 (add_cron_job (some "") "0  0 * * *" "x" "note" true).written).map
      (fun j => j.schedule) = ["0 0 * * *"] ∧
    ("0 0 * * *" : String) ≠ "0  0 * * *" := by
  refine ⟨by decide, by decide, by decide⟩
